import Mathlib

/-!
# Verification of the asuka continuous-deployment orchestrator

Shallow embedding of the parts of the `asuka` code base that the
specification's claims are about, together with proofs (or refutations)
of those claims.

* `asuka/build.py` — service-manifest dependency resolution
  (`BaseBuild.services`), the install sequence (`Build.install`), and
  replaced-instance selection (`Build.replaced_instances`,
  `BaseBuild.terminate_instances`).
* `asuka/services/elb.py` — DNS record reconciliation
  (`ELBService.route_domain`).
* `asuka/instance.py` — SSH connect retry loop (`Instance.__enter__`)
  and `Instance.wait_state`.
* `asuka/branch.py` — `Branch.label`, `Branch.__eq__`, `Branch.__hash__`.
* `asuka/commit.py` — `Commit.__init__` ref validation and resolution.

Pure data (names, manifests, DNS records) is embedded as Lean data;
side-effecting remote operations are embedded as event traces; the
fetched source tree and the AWS record state are passed in explicitly.
-/

namespace Asuka

/-! ## Service manifests and dependency resolution (`BaseBuild.services`)

`BaseBuild.services` (build.py lines 88-131) reads one YAML manifest per
service, drops the entries whose `enabled` field is absent or falsy
(line 107, `if not service_dict.pop('enabled', False): continue`), and
then orders the remaining ones by a depth-first traversal:

```
result = []
visited = set()
def visit(name, service_dict):
    if name in visited:
        return
    visited.add(name)
    for d_name, d_service_dict in service_dicts.iteritems():
        if name in d_service_dict.get('depends', ()):
            visit(d_name, d_service_dict)
    service = self.create_service(name, service_dict)
    result.append(service)
for name, service_dict in service_dicts.iteritems():
    if not service_dict.get('depends'):
        visit(name, service_dict)
result = result[::-1]
```

A manifest is embedded as its `enabled` flag and `depends` list; the
other fields (`type`, the configuration mapping) do not influence the
order.  A Python dict is embedded as an association list, whose order
stands for the (arbitrary but fixed) dict iteration order.  Python's
unbounded recursion is embedded with a fuel parameter; the call site
passes `sds.length` fuel, which is always sufficient because every
level of nesting marks one previously unvisited name as visited.
-/

/-- One parsed `*.yml` service manifest (build.py lines 104-109): the
`enabled` flag (absent defaults to false/disabled) and the `depends`
list (absent defaults to empty). -/
structure Manifest where
  enabled : Bool
  depends : List String
  deriving Repr, DecidableEq

/-- The enabled entries of a manifest mapping, reduced to their
`depends` lists (build.py lines 100-109): a disabled entry never enters
`service_dicts`. -/
def enabledManifests (ms : List (String × Manifest)) : List (String × List String) :=
  (ms.filter fun p => p.2.enabled).map fun p => (p.1, p.2.depends)

/-- The mutable state of the traversal in `BaseBuild.services`:
the `visited` set (embedded as a list) and the `result` list. -/
structure VisitState where
  visited : List String
  result : List String
  deriving Repr, DecidableEq

/-- The inner `visit` closure of `BaseBuild.services` (build.py lines
114-125), with explicit state and fuel.  `visit name` marks `name`
visited, recurses into every entry whose `depends` mentions `name`,
and finally appends `name` to the result (the appended service object
carries the name it was created from). -/
def visit (sds : List (String × List String)) : Nat → String → VisitState → VisitState
  | 0, _, st => st
  | fuel + 1, name, st =>
    if name ∈ st.visited then st
    else
      let st1 : VisitState := ⟨name :: st.visited, st.result⟩
      let st2 := sds.foldl
        (fun s p => if name ∈ p.2 then visit sds fuel p.1 s else s) st1
      ⟨st2.visited, st2.result ++ [name]⟩

/-- The state after the driver loop of `BaseBuild.services` (build.py
lines 126-128): `visit` every entry whose `depends` is empty or absent
(falsy). -/
def finalState (sds : List (String × List String)) : VisitState :=
  sds.foldl
    (fun s p => if p.2 = [] then visit sds sds.length p.1 s else s)
    ⟨[], []⟩

/-- The driver loop and final reversal of `BaseBuild.services`
(build.py lines 126-129). -/
def resolveOrder (sds : List (String × List String)) : List String :=
  (finalState sds).result.reverse

/-- `BaseBuild.services` (build.py lines 94-131).  The argument is the
application's config directory of the fetched tree: `none` when the
directory does not exist — in which case the Python method hits the
bare `return` on line 98 and produces `None` — and otherwise the
manifest mapping parsed from it. -/
def services (tree : Option (List (String × Manifest))) : Option (List String) :=
  match tree with
  | none => none
  | some ms => some (resolveOrder (enabledManifests ms))

/-- The names (dict keys) of a manifest mapping. -/
def names (sds : List (String × List String)) : List String :=
  sds.map Prod.fst

/-- `Edge sds u v` holds when manifest `v` declares `u` in its
`depends` list, i.e. `v` depends on `u` and the resolved order must
place `u` before `v`. -/
def Edge (sds : List (String × List String)) (u v : String) : Prop :=
  ∃ p ∈ sds, p.1 = v ∧ u ∈ p.2

/-- A name is grey when it has been visited but not yet appended to the
result: it is on the recursion stack of `visit`. -/
def grey (st : VisitState) (x : String) : Prop :=
  x ∈ st.visited ∧ x ∉ st.result

/-- Invariant of the traversal state: the result only holds visited
names, holds them at most once, and whenever a finished name `u` has a
dependent `v` (an entry declaring `depends` on `u`), `v` is already
finished and appears before `u` in the (not yet reversed) result. -/
structure Inv (sds : List (String × List String)) (st : VisitState) : Prop where
  r_sub : ∀ x ∈ st.result, x ∈ st.visited
  r_nodup : st.result.Nodup
  r_order : ∀ u v, Edge sds u v → u ∈ st.result → List.Sublist [v, u] st.result

/-- What one (or several composed) `visit` call(s) guarantee about the
state transition. -/
structure VisitPost (sds : List (String × List String)) (st st' : VisitState) : Prop where
  inv : Inv sds st'
  vis_mono : ∀ x ∈ st.visited, x ∈ st'.visited
  res_mono : List.Sublist st.result st'.result
  grey_eq : ∀ x, grey st' x ↔ grey st x
  vis_new : ∀ x ∈ st'.visited, x ∈ st.visited ∨ x ∈ names sds

/-- Number of names of `sds` not yet visited; the fuel bound. -/
def freshCard (sds : List (String × List String)) (st : VisitState) : Nat :=
  ((names sds).toFinset \ st.visited.toFinset).card

theorem visitPost_rfl {sds : List (String × List String)} {st : VisitState}
    (h : Inv sds st) : VisitPost sds st st :=
  ⟨h, fun _ hx => hx, List.Sublist.refl _, fun _ => Iff.rfl, fun _ hx => Or.inl hx⟩

theorem visitPost_trans {sds : List (String × List String)} {st₁ st₂ st₃ : VisitState}
    (h₁ : VisitPost sds st₁ st₂) (h₂ : VisitPost sds st₂ st₃) :
    VisitPost sds st₁ st₃ := by
  refine ⟨h₂.inv, fun x hx => h₂.vis_mono x (h₁.vis_mono x hx),
    h₁.res_mono.trans h₂.res_mono,
    fun x => (h₂.grey_eq x).trans (h₁.grey_eq x), fun x hx => ?_⟩
  rcases h₂.vis_new x hx with h | h
  · exact h₁.vis_new x h
  · exact Or.inr h

theorem freshCard_mono {sds : List (String × List String)} {st st' : VisitState}
    (h : ∀ x ∈ st.visited, x ∈ st'.visited) :
    freshCard sds st' ≤ freshCard sds st := by
  apply Finset.card_le_card
  intro x hx
  rw [Finset.mem_sdiff] at hx ⊢
  refine ⟨hx.1, fun hc => hx.2 ?_⟩
  rw [List.mem_toFinset] at hc ⊢
  exact h x hc

theorem edge_of_entry {sds : List (String × List String)} {p : String × List String}
    (hp : p ∈ sds) {u : String} (hu : u ∈ p.2) : Edge sds u p.1 :=
  ⟨p, hp, rfl, hu⟩

/-- The inner `for d_name, d_service_dict in service_dicts` loop of
`visit`: folding `visit` over the dependents of `n` preserves the
invariant and the grey set, and afterwards every dependent of `n` in
the folded-over entries has been visited. -/
theorem visit_fold_spec (sds : List (String × List String))
    (fuel : Nat)
    (IH : ∀ (m : String) (st : VisitState),
      m ∈ names sds → freshCard sds st ≤ fuel → Inv sds st →
      (∀ g, grey st g → Relation.TransGen (Edge sds) g m) →
      VisitPost sds st (visit sds fuel m st) ∧ m ∈ (visit sds fuel m st).visited)
    (n : String) :
    ∀ (l : List (String × List String)), (∀ p ∈ l, p ∈ sds) →
    ∀ (st : VisitState), freshCard sds st ≤ fuel → Inv sds st →
      (∀ g, grey st g → g = n ∨ Relation.TransGen (Edge sds) g n) →
      VisitPost sds st
        (l.foldl (fun s p => if n ∈ p.2 then visit sds fuel p.1 s else s) st) ∧
      ∀ p ∈ l, n ∈ p.2 →
        p.1 ∈ (l.foldl (fun s p => if n ∈ p.2 then visit sds fuel p.1 s else s) st).visited := by
  intro l
  induction l with
  | nil =>
    intro _ st hf hInv _
    exact ⟨visitPost_rfl hInv, by simp⟩
  | cons p l ihl =>
    intro hl st hf hInv hgrey
    have hpsds : p ∈ sds := hl p (List.mem_cons_self p l)
    have hl' : ∀ q ∈ l, q ∈ sds := fun q hq => hl q (List.mem_cons_of_mem p hq)
    by_cases hnp : n ∈ p.2
    · -- the entry depends on n: recurse into it
      have hexp : (p :: l).foldl (fun s q => if n ∈ q.2 then visit sds fuel q.1 s else s) st
          = l.foldl (fun s q => if n ∈ q.2 then visit sds fuel q.1 s else s)
            (visit sds fuel p.1 st) := by
        simp [hnp]
      have hanc' : ∀ g, grey st g → Relation.TransGen (Edge sds) g p.1 := by
        intro g hg
        rcases hgrey g hg with rfl | h
        · exact Relation.TransGen.single (edge_of_entry hpsds hnp)
        · exact h.tail (edge_of_entry hpsds hnp)
      obtain ⟨post1, hmem1⟩ := IH p.1 st (List.mem_map_of_mem Prod.fst hpsds)
        hf hInv hanc'
      obtain ⟨post2, hmem2⟩ := ihl hl' (visit sds fuel p.1 st)
        ((freshCard_mono post1.vis_mono).trans hf) post1.inv
        (fun g hg => hgrey g ((post1.grey_eq g).mp hg))
      rw [hexp]
      refine ⟨visitPost_trans post1 post2, ?_⟩
      intro q hq hnq
      rcases List.mem_cons.mp hq with rfl | hq'
      · exact post2.vis_mono q.1 hmem1
      · exact hmem2 q hq' hnq
    · -- the entry does not depend on n: skipped
      have hexp : (p :: l).foldl (fun s q => if n ∈ q.2 then visit sds fuel q.1 s else s) st
          = l.foldl (fun s q => if n ∈ q.2 then visit sds fuel q.1 s else s) st := by
        simp [hnp]
      rw [hexp]
      obtain ⟨post, hmem⟩ := ihl hl' st hf hInv hgrey
      refine ⟨post, ?_⟩
      intro q hq hnq
      rcases List.mem_cons.mp hq with rfl | hq'
      · exact absurd hnq hnp
      · exact hmem q hq' hnq

/-- Main correctness lemma for `visit`: assuming the dependency graph
is acyclic, a call on a name `n` (whose grey predecessors are all
strictly above `n` in the dependency order) preserves the invariant,
leaves the grey set unchanged, and marks `n` visited. -/
theorem visit_spec (sds : List (String × List String))
    (hacyc : ∀ x, ¬ Relation.TransGen (Edge sds) x x) :
    ∀ (fuel : Nat) (n : String) (st : VisitState),
      n ∈ names sds →
      freshCard sds st ≤ fuel →
      Inv sds st →
      (∀ g, grey st g → Relation.TransGen (Edge sds) g n) →
      VisitPost sds st (visit sds fuel n st) ∧ n ∈ (visit sds fuel n st).visited := by
  intro fuel
  induction fuel with
  | zero =>
    intro n st hn hf hInv _
    refine ⟨visitPost_rfl hInv, ?_⟩
    -- zero fuel forces every name to be visited already
    have hempty : (names sds).toFinset \ st.visited.toFinset = ∅ :=
      Finset.card_eq_zero.mp (Nat.le_zero.mp hf)
    by_contra hnv
    have : n ∈ (names sds).toFinset \ st.visited.toFinset := by
      rw [Finset.mem_sdiff, List.mem_toFinset, List.mem_toFinset]
      exact ⟨hn, hnv⟩
    rw [hempty] at this
    exact absurd this (Finset.not_mem_empty n)
  | succ fuel IH =>
    intro n st hn hf hInv hanc
    by_cases hv : n ∈ st.visited
    · have hstep : visit sds (fuel + 1) n st = st := by
        simp [visit, hv]
      rw [hstep]
      exact ⟨visitPost_rfl hInv, hv⟩
    · have hnr : n ∉ st.result := fun h => hv (hInv.r_sub n h)
      have hstep : visit sds (fuel + 1) n st =
          ⟨(sds.foldl (fun s p => if n ∈ p.2 then visit sds fuel p.1 s else s)
              ⟨n :: st.visited, st.result⟩).visited,
           (sds.foldl (fun s p => if n ∈ p.2 then visit sds fuel p.1 s else s)
              ⟨n :: st.visited, st.result⟩).result ++ [n]⟩ := by
        simp [visit, hv]
      have hInv1 : Inv sds ⟨n :: st.visited, st.result⟩ :=
        ⟨fun x hx => List.mem_cons_of_mem _ (hInv.r_sub x hx), hInv.r_nodup,
         hInv.r_order⟩
      have hf1 : freshCard sds ⟨n :: st.visited, st.result⟩ ≤ fuel := by
        have hmem : n ∈ (names sds).toFinset \ st.visited.toFinset := by
          rw [Finset.mem_sdiff, List.mem_toFinset, List.mem_toFinset]
          exact ⟨hn, hv⟩
        have hcard : 1 ≤ freshCard sds st :=
          Finset.card_pos.mpr ⟨n, hmem⟩
        have herase : freshCard sds ⟨n :: st.visited, st.result⟩
            = freshCard sds st - 1 := by
          show ((names sds).toFinset \ (n :: st.visited).toFinset).card = _
          rw [List.toFinset_cons, Finset.sdiff_insert,
            Finset.card_erase_of_mem hmem]
          rfl
        omega
      have hgrey1 : ∀ g, grey ⟨n :: st.visited, st.result⟩ g →
          g = n ∨ Relation.TransGen (Edge sds) g n := by
        rintro g ⟨hgv, hgr⟩
        rcases List.mem_cons.mp hgv with rfl | h
        · exact Or.inl rfl
        · exact Or.inr (hanc g ⟨h, hgr⟩)
      obtain ⟨post2, hdeps⟩ := visit_fold_spec sds fuel IH n sds
        (fun p hp => hp) ⟨n :: st.visited, st.result⟩ hf1 hInv1 hgrey1
      set st2 := sds.foldl (fun s p => if n ∈ p.2 then visit sds fuel p.1 s else s)
        ⟨n :: st.visited, st.result⟩ with hst2
      have hn_v2 : n ∈ st2.visited :=
        post2.vis_mono n (List.mem_cons_self n st.visited)
      have hn_grey2 : grey st2 n :=
        (post2.grey_eq n).mpr ⟨List.mem_cons_self n st.visited, hnr⟩
      have hn_r2 : n ∉ st2.result := hn_grey2.2
      -- every dependent of n is finished (black) after the fold
      have hdep_black : ∀ v, Edge sds n v → v ∈ st2.result := by
        rintro v ⟨p, hp, hpv, hnv⟩
        have hvvis : v ∈ st2.visited := hpv ▸ hdeps p hp hnv
        by_contra hvr
        have hg2 := (post2.grey_eq v).mp ⟨hvvis, hvr⟩
        rcases hgrey1 v hg2 with rfl | h
        · exact hacyc v (Relation.TransGen.single ⟨p, hp, hpv, hnv⟩)
        · exact hacyc v (h.tail ⟨p, hp, hpv, hnv⟩)
      rw [hstep]
      constructor
      · constructor
        · -- the invariant holds for the final state
          constructor
          · intro x hx
            rcases List.mem_append.mp hx with h | h
            · exact post2.inv.r_sub x h
            · rw [List.mem_singleton.mp h]; exact hn_v2
          · rw [List.nodup_append]
            refine ⟨post2.inv.r_nodup, List.nodup_singleton n, ?_⟩
            intro a ha hna
            rw [List.mem_singleton.mp hna] at ha
            exact hn_r2 ha
          · intro u v huv hu
            rcases List.mem_append.mp hu with h | h
            · exact (post2.inv.r_order u v huv h).trans
                (List.sublist_append_left _ _)
            · rw [List.mem_singleton.mp h] at huv ⊢
              have hvres : v ∈ st2.result := hdep_black v huv
              exact List.Sublist.append (List.singleton_sublist.mpr hvres)
                (List.Sublist.refl [n])
        · -- visited monotone
          intro x hx
          exact post2.vis_mono x (List.mem_cons_of_mem n hx)
        · -- result monotone
          exact post2.res_mono.trans (List.sublist_append_left _ _)
        · -- grey set preserved
          intro x
          constructor
          · rintro ⟨hxv, hxr⟩
            have hxn : x ≠ n := by
              rintro rfl
              exact hxr (List.mem_append.mpr (Or.inr (List.mem_singleton_self x)))
            have hxr2 : x ∉ st2.result :=
              fun h => hxr (List.mem_append.mpr (Or.inl h))
            have hg1 := (post2.grey_eq x).mp ⟨hxv, hxr2⟩
            rcases List.mem_cons.mp hg1.1 with rfl | h
            · exact absurd rfl hxn
            · exact ⟨h, hg1.2⟩
          · rintro ⟨hxv, hxr⟩
            have hxn : x ≠ n := by rintro rfl; exact hv hxv
            have hg2 := (post2.grey_eq x).mpr ⟨List.mem_cons_of_mem n hxv, hxr⟩
            refine ⟨hg2.1, fun hmem => ?_⟩
            rcases List.mem_append.mp hmem with h | h
            · exact hg2.2 h
            · exact hxn (List.mem_singleton.mp h)
        · -- visited only gains names of sds
          intro x hx
          rcases post2.vis_new x hx with h | h
          · rcases List.mem_cons.mp h with rfl | h'
            · exact Or.inr hn
            · exact Or.inl h'
          · exact Or.inr h
      · exact hn_v2

/-- The outer `for name, service_dict in service_dicts` loop of
`BaseBuild.services` (build.py lines 126-128), which calls `visit` on
every root (entry with falsy `depends`). -/
theorem resolve_fold_spec (sds : List (String × List String))
    (hacyc : ∀ x, ¬ Relation.TransGen (Edge sds) x x) (fuel : Nat) :
    ∀ (l : List (String × List String)), (∀ p ∈ l, p ∈ sds) →
    ∀ (st : VisitState), freshCard sds st ≤ fuel → Inv sds st →
      (∀ g, ¬ grey st g) →
      VisitPost sds st
        (l.foldl (fun s p => if p.2 = [] then visit sds fuel p.1 s else s) st) ∧
      ∀ p ∈ l, p.2 = [] →
        p.1 ∈ (l.foldl (fun s p => if p.2 = [] then visit sds fuel p.1 s else s) st).visited := by
  intro l
  induction l with
  | nil =>
    intro _ st hf hInv _
    exact ⟨visitPost_rfl hInv, by simp⟩
  | cons p l ihl =>
    intro hl st hf hInv hng
    have hpsds : p ∈ sds := hl p (List.mem_cons_self p l)
    have hl' : ∀ q ∈ l, q ∈ sds := fun q hq => hl q (List.mem_cons_of_mem p hq)
    by_cases hroot : p.2 = []
    · have hexp : (p :: l).foldl (fun s q => if q.2 = [] then visit sds fuel q.1 s else s) st
          = l.foldl (fun s q => if q.2 = [] then visit sds fuel q.1 s else s)
            (visit sds fuel p.1 st) := by
        simp [hroot]
      obtain ⟨post1, hmem1⟩ := visit_spec sds hacyc fuel p.1 st
        (List.mem_map_of_mem Prod.fst hpsds) hf hInv
        (fun g hg => absurd hg (hng g))
      have hng1 : ∀ g, ¬ grey (visit sds fuel p.1 st) g :=
        fun g hg => hng g ((post1.grey_eq g).mp hg)
      obtain ⟨post2, hmem2⟩ := ihl hl' (visit sds fuel p.1 st)
        ((freshCard_mono post1.vis_mono).trans hf) post1.inv hng1
      rw [hexp]
      refine ⟨visitPost_trans post1 post2, ?_⟩
      intro q hq hq2
      rcases List.mem_cons.mp hq with rfl | hq'
      · exact post2.vis_mono q.1 hmem1
      · exact hmem2 q hq' hq2
    · have hexp : (p :: l).foldl (fun s q => if q.2 = [] then visit sds fuel q.1 s else s) st
          = l.foldl (fun s q => if q.2 = [] then visit sds fuel q.1 s else s) st := by
        simp [hroot]
      rw [hexp]
      obtain ⟨post, hmem⟩ := ihl hl' st hf hInv hng
      refine ⟨post, ?_⟩
      intro q hq hq2
      rcases List.mem_cons.mp hq with rfl | hq'
      · exact absurd hq2 hroot
      · exact hmem q hq' hq2

theorem initial_inv (sds : List (String × List String)) : Inv sds ⟨[], []⟩ :=
  ⟨by simp, List.nodup_nil, by simp⟩

theorem initial_freshCard (sds : List (String × List String)) :
    freshCard sds ⟨[], []⟩ ≤ sds.length := by
  show ((names sds).toFinset \ ([] : List String).toFinset).card ≤ sds.length
  rw [List.toFinset_nil, Finset.sdiff_empty]
  calc (names sds).toFinset.card ≤ (names sds).length := List.toFinset_card_le _
  _ = sds.length := List.length_map _ _

/-- Summary of the driver loop: the invariant holds for the final
state, nothing is grey (everything visited was appended to the
result), every root was visited, and everything visited is a declared
name. -/
theorem finalState_spec (sds : List (String × List String))
    (hacyc : ∀ x, ¬ Relation.TransGen (Edge sds) x x) :
    VisitPost sds ⟨[], []⟩ (finalState sds) ∧
    ∀ p ∈ sds, p.2 = [] → p.1 ∈ (finalState sds).visited := by
  exact resolve_fold_spec sds hacyc sds.length sds (fun p hp => hp) ⟨[], []⟩
    (initial_freshCard sds) (initial_inv sds) (by rintro g ⟨hg, _⟩; simp at hg)

theorem finalState_black (sds : List (String × List String))
    (hacyc : ∀ x, ¬ Relation.TransGen (Edge sds) x x) :
    ∀ x ∈ (finalState sds).visited, x ∈ (finalState sds).result := by
  intro x hx
  by_contra hxr
  have := ((finalState_spec sds hacyc).1.grey_eq x).mp ⟨hx, hxr⟩
  simp [grey] at this

/-- Completeness: when every `depends` entry names a declared manifest
and the graph is acyclic, every declared name ends up in the result
list.  (Well-founded induction along the dependency relation: roots
are visited by the driver loop; a name with a dependency is finished
as soon as the dependency is, by the ordering invariant.) -/
theorem finalState_complete (sds : List (String × List String))
    (hacyc : ∀ x, ¬ Relation.TransGen (Edge sds) x x)
    (hclosed : ∀ p ∈ sds, ∀ d ∈ p.2, d ∈ names sds) :
    ∀ x ∈ names sds, x ∈ (finalState sds).result := by
  obtain ⟨postF, hroots⟩ := finalState_spec sds hacyc
  haveI : Finite {x : String // x ∈ names sds} :=
    (List.finite_toSet (names sds)).to_subtype
  let r : {x : String // x ∈ names sds} → {x : String // x ∈ names sds} → Prop :=
    fun a b => Relation.TransGen (Edge sds) a.1 b.1
  haveI : IsTrans {x : String // x ∈ names sds} r :=
    ⟨fun _ _ _ hab hbc => hab.trans hbc⟩
  haveI : IsIrrefl {x : String // x ∈ names sds} r :=
    ⟨fun a h => hacyc a.1 h⟩
  have hwf : WellFounded r := Finite.wellFounded_of_trans_of_irrefl r
  intro x hx
  suffices h : ∀ a : {x : String // x ∈ names sds},
      a.1 ∈ (finalState sds).result from h ⟨x, hx⟩
  intro a
  refine @WellFounded.induction _ r hwf
    (fun a => a.1 ∈ (finalState sds).result) a ?_
  intro b IHb
  obtain ⟨p, hp, hpb⟩ : ∃ p ∈ sds, p.1 = b.1 := by
    rcases List.mem_map.mp b.2 with ⟨p, hp, hpe⟩
    exact ⟨p, hp, hpe⟩
  cases hdep : p.2 with
  | nil =>
    have hvis : p.1 ∈ (finalState sds).visited := hroots p hp hdep
    rw [hpb] at hvis
    exact finalState_black sds hacyc b.1 hvis
  | cons d ds =>
    have hd : d ∈ p.2 := by rw [hdep]; exact List.mem_cons_self d ds
    have hEdge : Edge sds d b.1 := hpb ▸ edge_of_entry hp hd
    have hdres : d ∈ (finalState sds).result :=
      IHb ⟨d, hclosed p hp d hd⟩ (Relation.TransGen.single hEdge)
    have hsub := postF.inv.r_order d b.1 hEdge hdres
    exact hsub.subset (List.mem_cons_self b.1 [d])

/-- Soundness of the order: a dependency is always placed before its
dependent in the (reversed) resolved order. -/
theorem resolveOrder_respects_edges (sds : List (String × List String))
    (hacyc : ∀ x, ¬ Relation.TransGen (Edge sds) x x)
    (hclosed : ∀ p ∈ sds, ∀ d ∈ p.2, d ∈ names sds)
    {u v : String} (huv : Edge sds u v) :
    List.Sublist [u, v] (resolveOrder sds) := by
  obtain ⟨postF, _⟩ := finalState_spec sds hacyc
  have hu : u ∈ names sds := by
    rcases huv with ⟨p, hp, _, hup⟩
    exact hclosed p hp u hup
  have hures : u ∈ (finalState sds).result :=
    finalState_complete sds hacyc hclosed u hu
  have hsub := postF.inv.r_order u v huv hures
  have hrev := hsub.reverse
  simpa [resolveOrder] using hrev

/-- Basic bookkeeping facts about the dependent fold of `visit`, with
no acyclicity assumption: the visited set only grows, it only gains
declared names, and every result entry is either old or visited. -/
theorem visit_basic_fold (sds : List (String × List String)) (fuel : Nat)
    (IH : ∀ (m : String) (st : VisitState),
      (∀ x ∈ st.visited, x ∈ (visit sds fuel m st).visited) ∧
      (∀ x ∈ (visit sds fuel m st).visited,
        x ∈ st.visited ∨ x = m ∨ x ∈ names sds) ∧
      (∀ x ∈ (visit sds fuel m st).result,
        x ∈ st.result ∨ x ∈ (visit sds fuel m st).visited))
    (n : String) :
    ∀ (l : List (String × List String)), (∀ p ∈ l, p ∈ sds) →
    ∀ (st : VisitState),
      (∀ x ∈ st.visited,
        x ∈ (l.foldl (fun s p => if n ∈ p.2 then visit sds fuel p.1 s else s) st).visited) ∧
      (∀ x ∈ (l.foldl (fun s p => if n ∈ p.2 then visit sds fuel p.1 s else s) st).visited,
        x ∈ st.visited ∨ x ∈ names sds) ∧
      (∀ x ∈ (l.foldl (fun s p => if n ∈ p.2 then visit sds fuel p.1 s else s) st).result,
        x ∈ st.result ∨
          x ∈ (l.foldl (fun s p => if n ∈ p.2 then visit sds fuel p.1 s else s) st).visited) := by
  intro l
  induction l with
  | nil => intro _ st; exact ⟨fun x hx => hx, fun x hx => Or.inl hx, fun x hx => Or.inl hx⟩
  | cons p l ihl =>
    intro hl st
    have hpn : p.1 ∈ names sds :=
      List.mem_map_of_mem Prod.fst (hl p (List.mem_cons_self p l))
    have hl' : ∀ q ∈ l, q ∈ sds := fun q hq => hl q (List.mem_cons_of_mem p hq)
    by_cases hnp : n ∈ p.2
    · have hexp : (p :: l).foldl (fun s q => if n ∈ q.2 then visit sds fuel q.1 s else s) st
          = l.foldl (fun s q => if n ∈ q.2 then visit sds fuel q.1 s else s)
            (visit sds fuel p.1 st) := by simp [hnp]
      rw [hexp]
      obtain ⟨hm1, hv1, hr1⟩ := IH p.1 st
      obtain ⟨hm2, hv2, hr2⟩ := ihl hl' (visit sds fuel p.1 st)
      refine ⟨fun x hx => hm2 x (hm1 x hx), ?_, ?_⟩
      · intro x hx
        rcases hv2 x hx with h | h
        · rcases hv1 x h with h' | h' | h'
          · exact Or.inl h'
          · exact Or.inr (h' ▸ hpn)
          · exact Or.inr h'
        · exact Or.inr h
      · intro x hx
        rcases hr2 x hx with h | h
        · rcases hr1 x h with h' | h'
          · exact Or.inl h'
          · exact Or.inr (hm2 x h')
        · exact Or.inr h
    · have hexp : (p :: l).foldl (fun s q => if n ∈ q.2 then visit sds fuel q.1 s else s) st
          = l.foldl (fun s q => if n ∈ q.2 then visit sds fuel q.1 s else s) st := by
        simp [hnp]
      rw [hexp]
      exact ihl hl' st

/-- Basic bookkeeping facts about `visit`, with no acyclicity
assumption. -/
theorem visit_basic (sds : List (String × List String)) :
    ∀ (fuel : Nat) (n : String) (st : VisitState),
      (∀ x ∈ st.visited, x ∈ (visit sds fuel n st).visited) ∧
      (∀ x ∈ (visit sds fuel n st).visited,
        x ∈ st.visited ∨ x = n ∨ x ∈ names sds) ∧
      (∀ x ∈ (visit sds fuel n st).result,
        x ∈ st.result ∨ x ∈ (visit sds fuel n st).visited) := by
  intro fuel
  induction fuel with
  | zero =>
    intro n st
    exact ⟨fun x hx => hx, fun x hx => Or.inl hx, fun x hx => Or.inl hx⟩
  | succ fuel IH =>
    intro n st
    by_cases hv : n ∈ st.visited
    · have hstep : visit sds (fuel + 1) n st = st := by simp [visit, hv]
      rw [hstep]
      exact ⟨fun x hx => hx, fun x hx => Or.inl hx, fun x hx => Or.inl hx⟩
    · have hstep : visit sds (fuel + 1) n st =
          ⟨(sds.foldl (fun s p => if n ∈ p.2 then visit sds fuel p.1 s else s)
              ⟨n :: st.visited, st.result⟩).visited,
           (sds.foldl (fun s p => if n ∈ p.2 then visit sds fuel p.1 s else s)
              ⟨n :: st.visited, st.result⟩).result ++ [n]⟩ := by
        simp [visit, hv]
      rw [hstep]
      obtain ⟨hm2, hv2, hr2⟩ := visit_basic_fold sds fuel IH n sds
        (fun p hp => hp) ⟨n :: st.visited, st.result⟩
      refine ⟨fun x hx => hm2 x (List.mem_cons_of_mem n hx), ?_, ?_⟩
      · intro x hx
        rcases hv2 x hx with h | h
        · rcases List.mem_cons.mp h with rfl | h'
          · exact Or.inr (Or.inl rfl)
          · exact Or.inl h'
        · exact Or.inr (Or.inr h)
      · intro x hx
        rcases List.mem_append.mp hx with h | h
        · rcases hr2 x h with h' | h'
          · exact Or.inl h'
          · exact Or.inr h'
        · rw [List.mem_singleton.mp h]
          exact Or.inr (hm2 n (List.mem_cons_self n st.visited))

/-- Basic bookkeeping facts about the driver loop, with no acyclicity
assumption. -/
theorem resolve_fold_basic (sds : List (String × List String)) :
    ∀ (l : List (String × List String)), (∀ p ∈ l, p ∈ sds) →
    ∀ (st : VisitState),
      (∀ x ∈ st.visited,
        x ∈ (l.foldl (fun s p => if p.2 = [] then visit sds sds.length p.1 s else s) st).visited) ∧
      (∀ x ∈ (l.foldl (fun s p => if p.2 = [] then visit sds sds.length p.1 s else s) st).visited,
        x ∈ st.visited ∨ x ∈ names sds) ∧
      (∀ x ∈ (l.foldl (fun s p => if p.2 = [] then visit sds sds.length p.1 s else s) st).result,
        x ∈ st.result ∨
          x ∈ (l.foldl (fun s p => if p.2 = [] then visit sds sds.length p.1 s else s) st).visited) := by
  intro l
  induction l with
  | nil => intro _ st; exact ⟨fun x hx => hx, fun x hx => Or.inl hx, fun x hx => Or.inl hx⟩
  | cons p l ihl =>
    intro hl st
    have hpn : p.1 ∈ names sds :=
      List.mem_map_of_mem Prod.fst (hl p (List.mem_cons_self p l))
    have hl' : ∀ q ∈ l, q ∈ sds := fun q hq => hl q (List.mem_cons_of_mem p hq)
    by_cases hroot : p.2 = []
    · have hexp : (p :: l).foldl (fun s q => if q.2 = [] then visit sds sds.length q.1 s else s) st
          = l.foldl (fun s q => if q.2 = [] then visit sds sds.length q.1 s else s)
            (visit sds sds.length p.1 st) := by simp [hroot]
      rw [hexp]
      obtain ⟨hm1, hv1, hr1⟩ := visit_basic sds sds.length p.1 st
      obtain ⟨hm2, hv2, hr2⟩ := ihl hl' (visit sds sds.length p.1 st)
      refine ⟨fun x hx => hm2 x (hm1 x hx), ?_, ?_⟩
      · intro x hx
        rcases hv2 x hx with h | h
        · rcases hv1 x h with h' | h' | h'
          · exact Or.inl h'
          · exact Or.inr (h' ▸ hpn)
          · exact Or.inr h'
        · exact Or.inr h
      · intro x hx
        rcases hr2 x hx with h | h
        · rcases hr1 x h with h' | h'
          · exact Or.inl h'
          · exact Or.inr (hm2 x h')
        · exact Or.inr h
    · have hexp : (p :: l).foldl (fun s q => if q.2 = [] then visit sds sds.length q.1 s else s) st
          = l.foldl (fun s q => if q.2 = [] then visit sds sds.length q.1 s else s) st := by
        simp [hroot]
      rw [hexp]
      exact ihl hl' st

/-- Unconditionally, the resolved order only contains declared
(enabled) names. -/
theorem resolveOrder_subset_names (sds : List (String × List String)) :
    ∀ x ∈ resolveOrder sds, x ∈ names sds := by
  intro x hx
  have hx' : x ∈ (finalState sds).result := by
    simpa [resolveOrder] using hx
  obtain ⟨_, hv, hr⟩ := resolve_fold_basic sds sds (fun p hp => hp) ⟨[], []⟩
  rcases hr x hx' with h | h
  · simp at h
  · rcases hv x h with h2 | h2
    · simp at h2
    · exact h2

/-! ### Error behaviour of the resolver

`visit` calls `self.create_service(name, service_dict)` and re-raises
any failure with the service name prefixed (build.py lines 121-124):

```
try:
    service = self.create_service(name, service_dict)
except Exception as e:
    raise type(e)(name + ': ' + str(e))
result.append(service)
```

`visitE` embeds this error path: `createError name` is `some msg` when
`create_service` would raise with message `msg` for that manifest
(bad `type` field and the like), `none` when construction succeeds.
The appended service object carries the name it was created from.
This is the only error site of the traversal: the resolver has no
check at all that a `depends` entry names a present, enabled manifest.
-/

def visitE (sds : List (String × List String)) (createError : String → Option String) :
    Nat → String → VisitState → Except String VisitState
  | 0, _, st => .ok st
  | fuel + 1, name, st =>
    if name ∈ st.visited then .ok st
    else do
      let st2 ← sds.foldlM
        (fun s p => if name ∈ p.2 then visitE sds createError fuel p.1 s else pure s)
        (⟨name :: st.visited, st.result⟩ : VisitState)
      match createError name with
      | some e => .error (name ++ ": " ++ e)
      | none => .ok ⟨st2.visited, st2.result ++ [name]⟩

/-- `BaseBuild.services` with the `create_service` error path
(build.py lines 112-131). -/
def resolveE (sds : List (String × List String)) (createError : String → Option String) :
    Except String (List String) := do
  let st ← sds.foldlM
    (fun s p => if p.2 = [] then visitE sds createError sds.length p.1 s else pure s)
    (⟨[], []⟩ : VisitState)
  pure st.result.reverse

theorem visitE_ok (sds : List (String × List String))
    (createError : String → Option String) (hok : ∀ n, createError n = none) :
    ∀ (fuel : Nat) (n : String) (st : VisitState),
      visitE sds createError fuel n st = .ok (visit sds fuel n st) := by
  intro fuel
  induction fuel with
  | zero => intro n st; rfl
  | succ fuel IH =>
    intro n st
    by_cases hv : n ∈ st.visited
    · simp [visitE, visit, hv]
    · have hfold : ∀ (l : List (String × List String)) (st0 : VisitState),
          l.foldlM (fun s p => if n ∈ p.2 then visitE sds createError fuel p.1 s else pure s) st0
          = .ok (l.foldl (fun s p => if n ∈ p.2 then visit sds fuel p.1 s else s) st0) := by
        intro l
        induction l with
        | nil => intro st0; rfl
        | cons p l ihl =>
          intro st0
          by_cases hnp : n ∈ p.2
          · rw [List.foldlM_cons, List.foldl_cons, if_pos hnp, if_pos hnp,
              IH p.1 st0]
            exact ihl (visit sds fuel p.1 st0)
          · rw [List.foldlM_cons, List.foldl_cons, if_neg hnp, if_neg hnp]
            exact ihl st0
      simp only [visitE, hv, if_neg, not_false_iff, hok n]
      rw [hfold sds ⟨n :: st.visited, st.result⟩]
      simp only [visit, hv, if_neg, not_false_iff]
      rfl

/-- When every manifest constructs successfully, the resolver never
raises, whether or not `depends` entries are resolvable. -/
theorem resolveE_ok (sds : List (String × List String))
    (createError : String → Option String) (hok : ∀ n, createError n = none) :
    resolveE sds createError = .ok (resolveOrder sds) := by
  have hfold : ∀ (l : List (String × List String)) (st0 : VisitState),
      l.foldlM (fun s p =>
        if p.2 = [] then visitE sds createError sds.length p.1 s else pure s) st0
      = .ok (l.foldl (fun s p =>
          if p.2 = [] then visit sds sds.length p.1 s else s) st0) := by
    intro l
    induction l with
    | nil => intro st0; rfl
    | cons p l ihl =>
      intro st0
      by_cases hroot : p.2 = []
      · rw [List.foldlM_cons, List.foldl_cons, if_pos hroot, if_pos hroot,
          visitE_ok sds createError hok sds.length p.1 st0]
        exact ihl (visit sds sds.length p.1 st0)
      · rw [List.foldlM_cons, List.foldl_cons, if_neg hroot, if_neg hroot]
        exact ihl st0
  simp only [resolveE]
  rw [hfold sds ⟨[], []⟩]
  rfl

/-- C1: for every acyclic set of enabled service manifests in which
every name listed in a `depends` set refers to a present, enabled
manifest, the sequence returned by `BaseBuild.services` places service
A before service B whenever B's manifest declares A in its `depends`
set; in particular the manifest set (web enabled with no depends,
worker enabled depending on web, db disabled) resolves to exactly
[web, worker]. -/
theorem services_topological_order :
    (∀ (ms : List (String × Manifest)),
      (ms.map Prod.fst).Nodup →
      (∀ x, ¬ Relation.TransGen (Edge (enabledManifests ms)) x x) →
      (∀ p ∈ enabledManifests ms, ∀ d ∈ p.2, d ∈ names (enabledManifests ms)) →
      ∀ u v, Edge (enabledManifests ms) u v →
        List.Sublist [u, v] (resolveOrder (enabledManifests ms))) ∧
    services (some [("web", ⟨true, []⟩), ("worker", ⟨true, ["web"]⟩),
      ("db", ⟨false, []⟩)]) = some ["web", "worker"] := by
  constructor
  · intro ms _ hacyc hclosed u v huv
    exact resolveOrder_respects_edges (enabledManifests ms) hacyc hclosed huv
  · decide

/-- Witness for C1: instantiating the universally quantified part at
the concrete web/worker manifest set, with each hypothesis discharged
there. -/
theorem services_topological_order_witness :
    List.Sublist ["web", "worker"] (resolveOrder (enabledManifests
      [("web", ⟨true, []⟩), ("worker", ⟨true, ["web"]⟩), ("db", ⟨false, []⟩)])) := by
  have hedge : ∀ u v,
      Edge (enabledManifests [("web", ⟨true, []⟩), ("worker", ⟨true, ["web"]⟩),
        ("db", ⟨false, []⟩)]) u v → u = "web" ∧ v = "worker" := by
    rintro u v ⟨p, hp, hpv, hup⟩
    have hp' : p = ("web", ([] : List String)) ∨ p = ("worker", ["web"]) := by
      have : p ∈ [("web", ([] : List String)), ("worker", ["web"])] := hp
      simpa using this
    rcases hp' with rfl | rfl
    · simp at hup
    · simp at hup
      exact ⟨hup, hpv.symm⟩
  have htg : ∀ u v,
      Relation.TransGen (Edge (enabledManifests [("web", ⟨true, []⟩),
        ("worker", ⟨true, ["web"]⟩), ("db", ⟨false, []⟩)])) u v →
      u = "web" ∧ v = "worker" := by
    intro u v h
    induction h with
    | single h => exact hedge _ _ h
    | tail _ hbc IH =>
      obtain ⟨ha, _⟩ := IH
      obtain ⟨hb, hc⟩ := hedge _ _ hbc
      exact ⟨ha, hc⟩
  have hacyc : ∀ x, ¬ Relation.TransGen (Edge (enabledManifests
      [("web", ⟨true, []⟩), ("worker", ⟨true, ["web"]⟩), ("db", ⟨false, []⟩)])) x x := by
    intro x hx
    obtain ⟨h1, h2⟩ := htg x x hx
    rw [h1] at h2
    simp at h2
  refine services_topological_order.1
    [("web", ⟨true, []⟩), ("worker", ⟨true, ["web"]⟩), ("db", ⟨false, []⟩)]
    (by decide) hacyc (by decide) "web" "worker" ?_
  exact ⟨("worker", ["web"]), by decide, rfl, by decide⟩

/-- C3 counterexample: the manifest set (a enabled depending on b,
b disabled) resolves without any error — `BaseBuild.services` returns
normally with an empty order, silently dropping `a` — whereas the
claim asserts that referencing a disabled service raises an error
prefixed with the referencing service's name. -/
theorem services_dangling_depends_no_error :
    resolveE (enabledManifests [("a", ⟨true, ["b"]⟩), ("b", ⟨false, []⟩)])
      (fun _ => none) = Except.ok [] := by rfl

/-- C3 (amended): a disabled manifest (`enabled` absent or false)
never appears in the resolved output; but referencing a disabled or
absent service by name is not an error: whenever every manifest
constructs successfully, resolution returns normally (the
name-prefixed error wrapping of `BaseBuild.services` applies only to
manifest parsing/construction failures), and a service whose
`depends` cannot be satisfied is silently omitted. -/
theorem services_disabled_never_resolved :
    (∀ (ms : List (String × Manifest)) (x : String),
      x ∈ resolveOrder (enabledManifests ms) →
      ∃ m : Manifest, (x, m) ∈ ms ∧ m.enabled = true) ∧
    (∀ (sds : List (String × List String)) (createError : String → Option String),
      (∀ n, createError n = none) →
      resolveE sds createError = Except.ok (resolveOrder sds)) := by
  constructor
  · intro ms x hx
    have hn := resolveOrder_subset_names (enabledManifests ms) x hx
    simp only [names, enabledManifests, List.map_map, List.mem_map,
      List.mem_filter, Function.comp] at hn
    obtain ⟨p, ⟨hp, he⟩, hx'⟩ := hn
    exact ⟨p.2, by rw [← hx']; exact hp, he⟩
  · exact resolveE_ok

/-- Witness for C3 (amended): both parts at concrete inputs. -/
theorem services_disabled_never_resolved_witness :
    (∃ m : Manifest, ("web", m) ∈ [("web", (⟨true, []⟩ : Manifest))] ∧
      m.enabled = true) ∧
    resolveE [("web", [])] (fun _ => none)
      = Except.ok (resolveOrder [("web", [])]) :=
  ⟨services_disabled_never_resolved.1 [("web", ⟨true, []⟩)] "web" (by decide),
   services_disabled_never_resolved.2 [("web", [])] (fun _ => none)
     (fun _ => rfl)⟩

/-- C10: when the fetched tree has no config directory,
`BaseBuild.services` hits the bare `return` at build.py line 98 and
yields `None` (no value) rather than an empty sequence; when the
directory exists it always yields a list. -/
theorem services_none_without_config_dir :
    services none = none ∧
    ∀ ms : List (String × Manifest),
      services (some ms) = some (resolveOrder (enabledManifests ms)) :=
  ⟨rfl, fun _ => rfl⟩

/-! ## The install sequence of `Build.install`

`Build.install` (build.py lines 267-437) is a long effectful method;
the claims are about the order of the remote operations it performs
from the bootstrap-worker join onwards (lines 377-410):

```
instance_setup_worker.join()
self.instance.tags['Status'] = 'apt-installed'
...
sudo(pip_cmd + [remote_path], environ={'CI': '1'})
sudo(pip_cmd + ['-I'] + list(python_packages), environ={'CI': '1'})
self.instance.tags['Status'] = 'installed'
for service in service_manifests[1:]:
    for cmd in service.pre_install:
        sudo(cmd, ...)
...
refresh_values()
for service in service_manifests[1:]:
    service_value = service.install(self.instance)
    service_values[service.name] = service_value
    refresh_values()
for service in service_manifests[1:]:
    for cmd in service.post_install:
        sudo(cmd, ...)
```

The embedding records these operations as an event trace.  A
`values.json` write is recorded together with the keys the serialized
mapping holds at that point (the `.build` entry plus one key per
already-installed service, in installation order; the dict iteration
order of the JSON dump is irrelevant to the claims). -/

/-- A resolved service as `Build.install` consumes it: its name and
its declared pre/post install shell commands. -/
structure SvcManifest where
  name : String
  pre_install : List String
  post_install : List String
  deriving Repr, DecidableEq

/-- One observable remote operation of `Build.install`. -/
inductive Event
  | joinWorker
  | setTag (key value : String)
  | pipInstall (target : String)
  | sudoCmd (cmd : String)
  | writeValues (keys : List String)
  | installService (name : String)
  deriving Repr, DecidableEq

/-- The `for service in service_manifests[1:]` install loop (build.py
lines 404-407): each iteration calls `service.install(instance)`,
stores the returned value under the service's name and rewrites the
remote `values.json`. -/
def installKeysLoop (svcs : List SvcManifest) (keys : List String) : List Event :=
  match svcs with
  | [] => []
  | s :: rest =>
    Event.installService s.name :: Event.writeValues (keys ++ [s.name]) ::
      installKeysLoop rest (keys ++ [s.name])

/-- The trace of `Build.install` from the bootstrap join onwards
(build.py lines 377-410). -/
def installTrace (svcs : List SvcManifest) : List Event :=
  [Event.joinWorker,
   Event.setTag "Status" "apt-installed",
   Event.pipInstall "bundle",
   Event.pipInstall "requirements",
   Event.setTag "Status" "installed"]
  ++ (svcs.map fun s => s.pre_install.map Event.sudoCmd).flatten
  ++ [Event.writeValues [".build"]]
  ++ installKeysLoop svcs [".build"]
  ++ (svcs.map fun s => s.post_install.map Event.sudoCmd).flatten

/-- The events the C2 claim sequences: the join, the hook commands and
the per-service install calls. -/
def isHookEvent : Event → Bool
  | Event.joinWorker => true
  | Event.sudoCmd _ => true
  | Event.installService _ => true
  | _ => false

/-- C2 counterexample: for two services `web` and `worker`, each with
one pre-install and one post-install command, `Build.install` runs
all pre-install hooks first, then both installs, then all
post-install hooks — not the per-service interleaving
(web.pre, web.install, web.post, worker.pre, worker.install,
worker.post) the claim asserts. -/
theorem install_hook_order_counterexample :
    (installTrace [⟨"web", ["wpre"], ["wpost"]⟩,
        ⟨"worker", ["kpre"], ["kpost"]⟩]).filter isHookEvent
      = [Event.joinWorker, Event.sudoCmd "wpre", Event.sudoCmd "kpre",
         Event.installService "web", Event.installService "worker",
         Event.sudoCmd "wpost", Event.sudoCmd "kpost"] ∧
    ([Event.joinWorker, Event.sudoCmd "wpre", Event.sudoCmd "kpre",
      Event.installService "web", Event.installService "worker",
      Event.sudoCmd "wpost", Event.sudoCmd "kpost"] : List Event) ≠
    [Event.joinWorker, Event.sudoCmd "wpre", Event.installService "web",
     Event.sudoCmd "wpost", Event.sudoCmd "kpre",
     Event.installService "worker", Event.sudoCmd "kpost"] := by
  constructor
  · rfl
  · decide

/-- C2 (amended): from the join onwards, `Build.install` for resolved
services web then worker executes: join, then ALL pre-install
commands (web's then worker's), then `values.json` with only the
`.build` entry, then web.install, a `values.json` rewrite with
`.build` and web, then worker.install, a rewrite with `.build`, web
and worker, then ALL post-install commands (web's then worker's).
The rewrite after the k-th install always carries the `.build` entry
plus one key per service already installed, cumulatively, in order. -/
theorem install_sequence :
    (∀ web worker : SvcManifest,
      installTrace [web, worker] =
        [Event.joinWorker, Event.setTag "Status" "apt-installed",
         Event.pipInstall "bundle", Event.pipInstall "requirements",
         Event.setTag "Status" "installed"]
        ++ web.pre_install.map Event.sudoCmd
        ++ worker.pre_install.map Event.sudoCmd
        ++ [Event.writeValues [".build"],
            Event.installService web.name,
            Event.writeValues [".build", web.name],
            Event.installService worker.name,
            Event.writeValues [".build", web.name, worker.name]]
        ++ web.post_install.map Event.sudoCmd
        ++ worker.post_install.map Event.sudoCmd) ∧
    (∀ (svcs : List SvcManifest) (keys : List String) (k : Nat)
      (h : k < svcs.length),
      (installKeysLoop svcs keys)[2 * k]?
        = some (Event.installService (svcs.get ⟨k, h⟩).name) ∧
      (installKeysLoop svcs keys)[2 * k + 1]?
        = some (Event.writeValues
            (keys ++ (svcs.take (k + 1)).map SvcManifest.name))) := by
  constructor
  · intro web worker
    simp [installTrace, installKeysLoop]
  · intro svcs
    induction svcs with
    | nil => intro keys k h; simp at h
    | cons s rest IH =>
      intro keys k h
      cases k with
      | zero => simp [installKeysLoop]
      | succ k =>
        have hk : k < rest.length := by
          simpa using Nat.lt_of_succ_lt_succ h
        have h2 : 2 * (k + 1) = 2 * k + 1 + 1 := by ring
        obtain ⟨ih1, ih2⟩ := IH (keys ++ [s.name]) k hk
        constructor
        · rw [h2]
          simpa [installKeysLoop] using ih1
        · rw [h2]
          have := ih2
          simp only [installKeysLoop, List.getElem?_cons_succ]
          rw [this]
          simp [List.take_cons, List.append_assoc]

/-- Witness for C2 (amended): the quantified statements at concrete
inputs. -/
theorem install_sequence_witness :
    (installKeysLoop [⟨"web", [], []⟩, ⟨"worker", [], []⟩] [".build"])[2 * 1]?
      = some (Event.installService "worker") ∧
    (installKeysLoop [⟨"web", [], []⟩, ⟨"worker", [], []⟩] [".build"])[2 * 1 + 1]?
      = some (Event.writeValues [".build", "web", "worker"]) :=
  install_sequence.2 [⟨"web", [], []⟩, ⟨"worker", [], []⟩] [".build"] 1
    (by decide)

/-! ## Replaced instances and termination

`BaseBuild.replaced_instances` (build.py lines 177-199) queries EC2 for
all instances carrying `tag:App = app.name` and
`tag:Branch = branch.label` (a server-side filter).
`Build.replaced_instances` (build.py lines 475-483) then keeps only the
instances whose stripped `Commit` tag differs from the build's commit
ref and whose `Live` tag equals the build's `live` flag:

```
instance.tags.get('Commit', '').strip() != self.commit.ref and
instance.tags.get('Live', '') == self.live
```

`BaseBuild.terminate_instances` (build.py lines 201-210) terminates
exactly the ids of `replaced_instances`.  `Build.install` calls it at
its very end (line 436) after the new instance's tags are set.
An EC2 instance is embedded as its id and its tag mapping (an
association list with unique keys); the EC2 tag filter is modelled as
matching on the looked-up tag value. -/

/-- An EC2 instance as the termination logic sees it. -/
structure EC2Inst where
  id : String
  tags : List (String × String)
  deriving Repr, DecidableEq

/-- `tags.get(key, default)` on the instance's tag mapping. -/
def tagGet (i : EC2Inst) (key default : String) : String :=
  match i.tags.find? (fun p => p.1 == key) with
  | some p => p.2
  | none => default

/-- Python's `str.strip()`: remove ASCII whitespace from both ends. -/
def isPySpace (c : Char) : Bool :=
  c == ' ' || c == '\t' || c == '\n' || c == '\r' ||
    c == '\x0b' || c == '\x0c'

/-- Python's `str.strip()` on a string. -/
def pyStrip (s : String) : String :=
  ⟨((s.data.dropWhile isPySpace).reverse.dropWhile isPySpace).reverse⟩

/-- `BaseBuild.replaced_instances` (build.py lines 177-199): the EC2
query filtered by the `App` and `Branch` tags. -/
def baseReplacedInstances (appName branchLabel : String)
    (all : List EC2Inst) : List EC2Inst :=
  all.filter fun i => tagGet i "App" "" == appName && tagGet i "Branch" "" == branchLabel

/-- `Build.replaced_instances` (build.py lines 475-483). -/
def buildReplacedInstances (appName branchLabel commitRef live : String)
    (all : List EC2Inst) : List EC2Inst :=
  (baseReplacedInstances appName branchLabel all).filter fun i =>
    pyStrip (tagGet i "Commit" "") != commitRef && tagGet i "Live" "" == live

/-- `BaseBuild.terminate_instances` (build.py lines 201-210): the ids
passed to `ec2_connection.terminate_instances`. -/
def terminatedInstanceIds (appName branchLabel commitRef live : String)
    (all : List EC2Inst) : List String :=
  (buildReplacedInstances appName branchLabel commitRef live all).map EC2Inst.id

/-- C6: after a successful `Build.install` of a commit, the terminated
instances are exactly the app's instances tagged with the same branch
label whose (stripped) `Commit` tag differs from the new commit's ref
and whose `Live` tag equals this build's live flag; in particular,
given instances tagged (Branch branch-foo, Commit aaa, Live empty) and
(Branch branch-foo, Commit bbb, Live empty), a non-live deploy of
commit bbb terminates only the aaa-tagged instance. -/
theorem terminate_replaced_instances :
    (∀ (appName branchLabel commitRef live : String) (all : List EC2Inst),
      (∀ i ∈ all, tagGet i "App" "" = appName) →
      ∀ i, i ∈ buildReplacedInstances appName branchLabel commitRef live all ↔
        i ∈ all ∧ tagGet i "Branch" "" = branchLabel ∧
        pyStrip (tagGet i "Commit" "") ≠ commitRef ∧
        tagGet i "Live" "" = live) ∧
    terminatedInstanceIds "app" "branch-foo" "bbb" ""
      [⟨"i-aaa", [("App", "app"), ("Branch", "branch-foo"),
         ("Commit", "aaa"), ("Live", "")]⟩,
       ⟨"i-bbb", [("App", "app"), ("Branch", "branch-foo"),
         ("Commit", "bbb"), ("Live", "")]⟩]
      = ["i-aaa"] := by
  constructor
  · intro appName branchLabel commitRef live all happ i
    simp only [buildReplacedInstances, baseReplacedInstances,
      List.mem_filter, Bool.and_eq_true, beq_iff_eq, bne_iff_ne]
    constructor
    · rintro ⟨⟨hmem, _, hb⟩, hc, hl⟩
      exact ⟨hmem, hb, hc, hl⟩
    · rintro ⟨hmem, hb, hc, hl⟩
      exact ⟨⟨hmem, happ i hmem, hb⟩, hc, hl⟩
  · rfl

/-- Witness for C6: the quantified part applied to the two-instance
scenario, the `App` hypothesis discharged there. -/
theorem terminate_replaced_instances_witness :
    ⟨"i-aaa", [("App", "app"), ("Branch", "branch-foo"),
      ("Commit", "aaa"), ("Live", "")]⟩ ∈
      buildReplacedInstances "app" "branch-foo" "bbb" ""
        [⟨"i-aaa", [("App", "app"), ("Branch", "branch-foo"),
           ("Commit", "aaa"), ("Live", "")]⟩,
         ⟨"i-bbb", [("App", "app"), ("Branch", "branch-foo"),
           ("Commit", "bbb"), ("Live", "")]⟩] ↔
    (⟨"i-aaa", [("App", "app"), ("Branch", "branch-foo"),
      ("Commit", "aaa"), ("Live", "")]⟩ : EC2Inst) ∈
      [⟨"i-aaa", [("App", "app"), ("Branch", "branch-foo"),
         ("Commit", "aaa"), ("Live", "")]⟩,
       ⟨"i-bbb", [("App", "app"), ("Branch", "branch-foo"),
         ("Commit", "bbb"), ("Live", "")]⟩] ∧
    tagGet ⟨"i-aaa", [("App", "app"), ("Branch", "branch-foo"),
      ("Commit", "aaa"), ("Live", "")]⟩ "Branch" "" = "branch-foo" ∧
    pyStrip (tagGet ⟨"i-aaa", [("App", "app"), ("Branch", "branch-foo"),
      ("Commit", "aaa"), ("Live", "")]⟩ "Commit" "") ≠ "bbb" ∧
    tagGet ⟨"i-aaa", [("App", "app"), ("Branch", "branch-foo"),
      ("Commit", "aaa"), ("Live", "")]⟩ "Live" "" = "" :=
  terminate_replaced_instances.1 "app" "branch-foo" "bbb" ""
    [⟨"i-aaa", [("App", "app"), ("Branch", "branch-foo"),
       ("Commit", "aaa"), ("Live", "")]⟩,
     ⟨"i-bbb", [("App", "app"), ("Branch", "branch-foo"),
       ("Commit", "bbb"), ("Live", "")]⟩]
    (by decide) _

/-! ## DNS reconciliation (`ELBService.route_domain`)

`ELBService.route_domain(name, records)` (services/elb.py lines
154-213) stages CREATE/DELETE changes on a Route 53 changeset:

* apex (`topname == name`): for each goal `('A', dns_name)` and
  `('AAAA', 'ipv6.' + dns_name)`, scan the listed records for the
  first one with matching type and name; skip the goal when that
  record's alias target (hosted zone id + dns name) already equals the
  goal, otherwise stage a DELETE of it (carrying its ttl, identifier,
  weight, region and resource records) followed by a CREATE;
* non-apex: same inspection for the single CNAME goal whose value is
  `'dualstack.' + dns_name`; a matching record with exactly that value
  returns early with no change.

The record listing `records.connection.get_all_rrsets(zone_id, type,
name)` is embedded as a function from the queried type to the record
list; the inner `record.type == type_ and record.name == name` check
is kept.  `boto` record attributes that may be absent are `Option`s. -/

/-- A Route 53 resource record set as `route_domain` inspects it. -/
structure RRecord where
  rtype : String
  rname : String
  ttl : Option Nat
  alias_hosted_zone_id : Option String
  alias_dns_name : Option String
  identifier : Option String
  weight : Option Nat
  region : Option String
  resource_records : List String
  deriving Repr, DecidableEq

/-- One staged change of a `ResourceRecordSets` changeset
(`records.add_change(...)` plus the subsequent
`delete.resource_records = ...` assignments). -/
structure RChange where
  action : String
  rname : String
  rtype : String
  ttl : Option Nat
  alias_hosted_zone_id : Option String
  alias_dns_name : Option String
  identifier : Option String
  weight : Option Nat
  region : Option String
  resource_records : List String
  deriving Repr, DecidableEq

/-- The load balancer attributes `route_domain` consults. -/
structure LB where
  raw_dns_name : String
  canonical_hosted_zone_name_id : String
  deriving Repr, DecidableEq

/-- Python's `dns_name.endswith('.')`: the last character is a dot. -/
def pyEndsWithDot (s : String) : Bool :=
  s.data.getLast? == some '.'

/-- `ELBService.dns_name` (elb.py lines 138-144): the load balancer's
DNS name with a trailing dot appended when missing. -/
def lbDnsName (lb : LB) : String :=
  if pyEndsWithDot lb.raw_dns_name then lb.raw_dns_name
  else lb.raw_dns_name ++ "."

/-- `ELBService.ipv6_dns_name` (elb.py lines 146-148). -/
def ipv6DnsName (lb : LB) : String := "ipv6." ++ lbDnsName lb

/-- `ELBService.dualstack_dns_name` (elb.py lines 150-152). -/
def dualstackDnsName (lb : LB) : String := "dualstack." ++ lbDnsName lb

/-- The first listed record whose type and name match (the `for record
in get_list(...)` loops with their `break`s). -/
def findRecord (recs : List RRecord) (t nm : String) : Option RRecord :=
  recs.find? fun r => r.rtype == t && r.rname == nm

/-- The DELETE staged for a stale apex alias record (elb.py lines
172-184); note it carries the *new* alias target but the stale
record's ttl, identifier, weight, region and resource records. -/
def aliasDelete (r : RRecord) (hzid dns : String) : RChange :=
  ⟨"DELETE", r.rname, r.rtype, r.ttl, some hzid, some dns,
   r.identifier, r.weight, r.region, r.resource_records⟩

/-- The CREATE staged for an apex alias goal (elb.py lines 186-193). -/
def aliasCreate (nm t hzid dns : String) : RChange :=
  ⟨"CREATE", nm, t, none, some hzid, some dns, none, none, none, []⟩

/-- The DELETE staged for a stale CNAME record (elb.py lines
200-210). -/
def cnameDelete (r : RRecord) : RChange :=
  ⟨"DELETE", r.rname, r.rtype, r.ttl, none, none,
   r.identifier, r.weight, r.region, r.resource_records⟩

/-- The CREATE staged for the CNAME goal (elb.py lines 212-213):
`add_change('CREATE', name, 'CNAME')` followed by
`record.add_value(dualstack_dns_name)`. -/
def cnameCreate (nm dual : String) : RChange :=
  ⟨"CREATE", nm, "CNAME", none, none, none, none, none, none, [dual]⟩

/-- The body of the `for type_, dns_name in goals` loop of
`route_domain` (elb.py lines 163-193): the changes staged for one
apex goal. -/
def goalChanges (nm hzid : String) (getList : String → List RRecord)
    (t dns : String) : List RChange :=
  match findRecord (getList t) t nm with
  | some r =>
    if r.alias_hosted_zone_id == some hzid && r.alias_dns_name == some dns then
      []
    else
      [aliasDelete r hzid dns, aliasCreate nm t hzid dns]
  | none => [aliasCreate nm t hzid dns]

/-- `ELBService.route_domain` (elb.py lines 154-213) as the list of
changes it appends to the changeset, in staging order.  `getList t`
is the Route 53 record listing for type `t` at the queried name. -/
def routeDomain (topname nm : String) (lb : LB)
    (getList : String → List RRecord) : List RChange :=
  if topname = nm then
    let hzid := lb.canonical_hosted_zone_name_id
    let goals := [("A", lbDnsName lb), ("AAAA", ipv6DnsName lb)]
    goals.foldl (fun changes g => changes ++ goalChanges nm hzid getList g.1 g.2) []
  else
    match findRecord (getList "CNAME") "CNAME" nm with
    | some r =>
      if r.resource_records == [dualstackDnsName lb] then []
      else [cnameDelete r, cnameCreate nm (dualstackDnsName lb)]
    | none => [cnameCreate nm (dualstackDnsName lb)]

/-- Model of the external Route 53 commit semantics, used only to
state the call-commit-call scenario: committing a changeset removes,
from each type's listing, the records a DELETE names (same type, name
and set identifier) and appends the records the CREATEs describe. -/
def recordOfChange (c : RChange) : RRecord :=
  ⟨c.rtype, c.rname, c.ttl, c.alias_hosted_zone_id, c.alias_dns_name,
   c.identifier, c.weight, c.region, c.resource_records⟩

/-- Model of the external Route 53 commit semantics (see
`recordOfChange`). -/
def applyChangeset (getList : String → List RRecord) (cs : List RChange) :
    String → List RRecord :=
  fun t =>
    ((getList t).filter fun r =>
      !(cs.any fun c => c.action == "DELETE" && c.rtype == r.rtype &&
        c.rname == r.rname && c.identifier == r.identifier))
    ++ (cs.filter fun c => c.action == "CREATE" && c.rtype == t).map recordOfChange

/-- At most one record of a given type and name in a listing (the
normal Route 53 situation for non-weighted record sets). -/
def atMostOne (getList : String → List RRecord) (t nm : String) : Prop :=
  ∀ r1 ∈ getList t, ∀ r2 ∈ getList t,
    r1.rtype = t → r1.rname = nm → r2.rtype = t → r2.rname = nm → r1 = r2

theorem findRecord_spec {recs : List RRecord} {t nm : String} {r : RRecord}
    (h : findRecord recs t nm = some r) :
    r ∈ recs ∧ r.rtype = t ∧ r.rname = nm := by
  refine ⟨List.mem_of_find?_eq_some h, ?_⟩
  have hp := List.find?_some h
  rw [Bool.and_eq_true, beq_iff_eq, beq_iff_eq] at hp
  exact hp

theorem find?_filter_of_pass {α : Type} (l : List α) (p q : α → Bool) (r : α)
    (h : l.find? p = some r) (hq : q r = true) :
    (l.filter q).find? p = some r := by
  induction l with
  | nil => simp at h
  | cons a l ih =>
    rw [List.find?_cons] at h
    cases hpa : p a with
    | true =>
      rw [hpa] at h
      have hra : a = r := by simpa using h
      subst hra
      rw [List.filter_cons, if_pos hq, List.find?_cons, hpa]
    | false =>
      rw [hpa] at h
      cases hqa : q a with
      | true =>
        rw [List.filter_cons, if_pos hqa, List.find?_cons, hpa]
        exact ih h
      | false =>
        rw [List.filter_cons, if_neg (by simp [hqa])]
        exact ih h

theorem find?_filter_none {α : Type} (l : List α) (p q : α → Bool)
    (h : ∀ x ∈ l, p x = true → q x = false) :
    (l.filter q).find? p = none := by
  rw [List.find?_eq_none]
  intro x hx hpx
  rw [List.mem_filter] at hx
  have := h x hx.1 hpx
  rw [this] at hx
  exact Bool.false_ne_true hx.2

theorem find?_all_eq {α : Type} (l : List α) (p : α → Bool) (a : α)
    (hne : l ≠ []) (hall : ∀ x ∈ l, x = a) (hp : p a = true) :
    l.find? p = some a := by
  cases l with
  | nil => exact absurd rfl hne
  | cons x l =>
    have hx : x = a := hall x (List.mem_cons_self x l)
    subst hx
    rw [List.find?_cons, hp]

theorem findRecord_append (l1 l2 : List RRecord) (t nm : String) :
    findRecord (l1 ++ l2) t nm = (findRecord l1 t nm).or (findRecord l2 t nm) :=
  List.find?_append

theorem goalChanges_eq_some {nm hzid : String} {getList : String → List RRecord}
    {t dns : String} {r : RRecord} (h : findRecord (getList t) t nm = some r) :
    goalChanges nm hzid getList t dns =
      if r.alias_hosted_zone_id == some hzid && r.alias_dns_name == some dns then
        []
      else
        [aliasDelete r hzid dns, aliasCreate nm t hzid dns] := by
  unfold goalChanges
  rw [h]

theorem goalChanges_eq_none {nm hzid : String} {getList : String → List RRecord}
    {t dns : String} (h : findRecord (getList t) t nm = none) :
    goalChanges nm hzid getList t dns = [aliasCreate nm t hzid dns] := by
  unfold goalChanges
  rw [h]

/-- Exhaustive description of the changes one apex goal stages. -/
theorem goalChanges_cases (nm hzid : String) (getList : String → List RRecord)
    (t dns : String) {c : RChange} (hc : c ∈ goalChanges nm hzid getList t dns) :
    c.rtype = t ∧ c.rname = nm ∧
    (c.action = "DELETE" →
      ∃ r, findRecord (getList t) t nm = some r ∧ c = aliasDelete r hzid dns ∧
        ¬(r.alias_hosted_zone_id = some hzid ∧ r.alias_dns_name = some dns)) ∧
    (c.action = "CREATE" → c = aliasCreate nm t hzid dns) := by
  cases hfind : findRecord (getList t) t nm with
  | none =>
    rw [goalChanges_eq_none hfind] at hc
    simp only [List.mem_singleton] at hc
    subst hc
    refine ⟨rfl, rfl, ?_, fun _ => rfl⟩
    intro h
    simp [aliasCreate] at h
  | some r =>
    rw [goalChanges_eq_some hfind] at hc
    obtain ⟨hmem, hrt, hrn⟩ := findRecord_spec hfind
    by_cases hok : (r.alias_hosted_zone_id == some hzid &&
        r.alias_dns_name == some dns) = true
    · rw [if_pos hok] at hc
      simp at hc
    · rw [if_neg hok] at hc
      rw [Bool.and_eq_true, beq_iff_eq, beq_iff_eq] at hok
      rcases List.mem_cons.mp hc with rfl | hc'
      · refine ⟨hrt, hrn, ?_, ?_⟩
        · intro _
          exact ⟨r, rfl, rfl, fun h => hok ⟨h.1, h.2⟩⟩
        · intro h
          simp [aliasDelete] at h
      · rw [List.mem_singleton] at hc'
        subst hc'
        refine ⟨rfl, rfl, ?_, fun _ => rfl⟩
        intro h
        simp [aliasCreate] at h

/-- The second-call behaviour of one apex goal: after committing a
changeset whose type-`t` DELETEs and CREATEs are exactly the ones this
goal staged, the goal is met and stages nothing. -/
theorem goalChanges_second (nm hzid : String) (getList : String → List RRecord)
    (cs : List RChange) (t dns : String)
    (hU : atMostOne getList t nm)
    (hsub : ∀ c ∈ goalChanges nm hzid getList t dns, c ∈ cs)
    (hdel : ∀ c ∈ cs, c.action = "DELETE" → c.rtype = t →
      ∃ r, findRecord (getList t) t nm = some r ∧ c = aliasDelete r hzid dns ∧
        ¬(r.alias_hosted_zone_id = some hzid ∧ r.alias_dns_name = some dns))
    (hcr : ∀ c ∈ cs, c.action = "CREATE" → c.rtype = t →
      c = aliasCreate nm t hzid dns) :
    goalChanges nm hzid (applyChangeset getList cs) t dns = [] := by
  have happly : applyChangeset getList cs t =
      ((getList t).filter fun r =>
        !(cs.any fun c => c.action == "DELETE" && c.rtype == r.rtype &&
          c.rname == r.rname && c.identifier == r.identifier))
      ++ (cs.filter fun c => c.action == "CREATE" && c.rtype == t).map recordOfChange :=
    rfl
  cases hfind : findRecord (getList t) t nm with
  | some r =>
    obtain ⟨hmem, hrt, hrn⟩ := findRecord_spec hfind
    by_cases hok : (r.alias_hosted_zone_id == some hzid &&
        r.alias_dns_name == some dns) = true
    · -- the goal was already met: no type-t change was staged and the
      -- first matching record is untouched
      have hkeep : (cs.any fun c => c.action == "DELETE" && c.rtype == r.rtype &&
          c.rname == r.rname && c.identifier == r.identifier) = false := by
        by_contra hany
        rw [Bool.not_eq_false, List.any_eq_true] at hany
        obtain ⟨c, hcmem, hcmatch⟩ := hany
        rw [Bool.and_eq_true, Bool.and_eq_true, Bool.and_eq_true,
          beq_iff_eq, beq_iff_eq, beq_iff_eq, beq_iff_eq] at hcmatch
        obtain ⟨⟨⟨hca, hct⟩, _⟩, _⟩ := hcmatch
        obtain ⟨r', hfind', _, hnot⟩ := hdel c hcmem hca (hct.trans hrt)
        rw [hfind] at hfind'
        injection hfind' with hr
        subst hr
        rw [Bool.and_eq_true, beq_iff_eq, beq_iff_eq] at hok
        exact hnot ⟨hok.1, hok.2⟩
      have hleft : (((getList t).filter fun r =>
          !(cs.any fun c => c.action == "DELETE" && c.rtype == r.rtype &&
            c.rname == r.rname && c.identifier == r.identifier)).find?
            fun x => x.rtype == t && x.rname == nm) = some r := by
        apply find?_filter_of_pass
        · exact hfind
        · rw [hkeep]; rfl
      have hfind2 : findRecord (applyChangeset getList cs t) t nm = some r := by
        rw [happly, findRecord_append]
        unfold findRecord
        rw [hleft]
        rfl
      rw [goalChanges_eq_some hfind2, if_pos hok]
    · -- the goal was stale: its record was deleted and the staged
      -- CREATE is now the first (and only) matching record
      have hstale : goalChanges nm hzid getList t dns
          = [aliasDelete r hzid dns, aliasCreate nm t hzid dns] := by
        rw [goalChanges_eq_some hfind, if_neg hok]
      have hdelmem : aliasDelete r hzid dns ∈ cs := by
        apply hsub
        rw [hstale]
        exact List.mem_cons_self _ _
      have hcrmem : aliasCreate nm t hzid dns ∈ cs := by
        apply hsub
        rw [hstale]
        exact List.mem_cons_of_mem _ (List.mem_singleton_self _)
      have hleft : (((getList t).filter fun r =>
          !(cs.any fun c => c.action == "DELETE" && c.rtype == r.rtype &&
            c.rname == r.rname && c.identifier == r.identifier)).find?
            fun x => x.rtype == t && x.rname == nm) = none := by
        apply find?_filter_none
        intro x hx hpx
        rw [Bool.and_eq_true, beq_iff_eq, beq_iff_eq] at hpx
        have hxr : x = r := hU x hx r hmem hpx.1 hpx.2 hrt hrn
        subst hxr
        have hany : (cs.any fun c => c.action == "DELETE" && c.rtype == x.rtype &&
            c.rname == x.rname && c.identifier == x.identifier) = true := by
          rw [List.any_eq_true]
          refine ⟨aliasDelete x hzid dns, hdelmem, ?_⟩
          simp [aliasDelete]
        rw [hany]
        rfl
      have hnews : ∀ y ∈ (cs.filter fun c => c.action == "CREATE" && c.rtype == t).map
          recordOfChange, y = recordOfChange (aliasCreate nm t hzid dns) := by
        intro y hy
        rw [List.mem_map] at hy
        obtain ⟨c, hcf, hcy⟩ := hy
        rw [List.mem_filter, Bool.and_eq_true, beq_iff_eq, beq_iff_eq] at hcf
        rw [← hcy, hcr c hcf.1 hcf.2.1 hcf.2.2]
      have hne : (cs.filter fun c => c.action == "CREATE" && c.rtype == t).map
          recordOfChange ≠ [] := by
        intro hemp
        have : recordOfChange (aliasCreate nm t hzid dns) ∈
            (cs.filter fun c => c.action == "CREATE" && c.rtype == t).map
              recordOfChange := by
          apply List.mem_map_of_mem
          rw [List.mem_filter]
          exact ⟨hcrmem, by simp [aliasCreate]⟩
        rw [hemp] at this
        simp at this
      have hright : ((cs.filter fun c => c.action == "CREATE" && c.rtype == t).map
          recordOfChange).find? (fun x => x.rtype == t && x.rname == nm)
          = some (recordOfChange (aliasCreate nm t hzid dns)) := by
        apply find?_all_eq _ _ _ hne hnews
        simp [recordOfChange, aliasCreate]
      have hfind2 : findRecord (applyChangeset getList cs t) t nm
          = some (recordOfChange (aliasCreate nm t hzid dns)) := by
        rw [happly, findRecord_append]
        unfold findRecord
        rw [hleft, hright]
        rfl
      rw [goalChanges_eq_some hfind2, if_pos (by simp [recordOfChange, aliasCreate])]
    | none =>
      -- no record yet: the staged CREATE is now the first matching record
      have hcre : goalChanges nm hzid getList t dns = [aliasCreate nm t hzid dns] :=
        goalChanges_eq_none hfind
      have hcrmem : aliasCreate nm t hzid dns ∈ cs := by
        apply hsub
        rw [hcre]
        exact List.mem_singleton_self _
      have hleft : (((getList t).filter fun r =>
          !(cs.any fun c => c.action == "DELETE" && c.rtype == r.rtype &&
            c.rname == r.rname && c.identifier == r.identifier)).find?
            fun x => x.rtype == t && x.rname == nm) = none := by
        rw [List.find?_eq_none]
        intro x hx
        exact List.find?_eq_none.mp hfind x (List.mem_of_mem_filter hx)
      have hnews : ∀ y ∈ (cs.filter fun c => c.action == "CREATE" && c.rtype == t).map
          recordOfChange, y = recordOfChange (aliasCreate nm t hzid dns) := by
        intro y hy
        rw [List.mem_map] at hy
        obtain ⟨c, hcf, hcy⟩ := hy
        rw [List.mem_filter, Bool.and_eq_true, beq_iff_eq, beq_iff_eq] at hcf
        rw [← hcy, hcr c hcf.1 hcf.2.1 hcf.2.2]
      have hne : (cs.filter fun c => c.action == "CREATE" && c.rtype == t).map
          recordOfChange ≠ [] := by
        intro hemp
        have : recordOfChange (aliasCreate nm t hzid dns) ∈
            (cs.filter fun c => c.action == "CREATE" && c.rtype == t).map
              recordOfChange := by
          apply List.mem_map_of_mem
          rw [List.mem_filter]
          exact ⟨hcrmem, by simp [aliasCreate]⟩
        rw [hemp] at this
        simp at this
      have hright : ((cs.filter fun c => c.action == "CREATE" && c.rtype == t).map
          recordOfChange).find? (fun x => x.rtype == t && x.rname == nm)
          = some (recordOfChange (aliasCreate nm t hzid dns)) := by
        apply find?_all_eq _ _ _ hne hnews
        simp [recordOfChange, aliasCreate]
      have hfind2 : findRecord (applyChangeset getList cs t) t nm
          = some (recordOfChange (aliasCreate nm t hzid dns)) := by
        rw [happly, findRecord_append]
        unfold findRecord
        rw [hleft, hright]
        rfl
      rw [goalChanges_eq_some hfind2, if_pos (by simp [recordOfChange, aliasCreate])]

theorem routeDomain_apex (nm : String) (lb : LB) (getList : String → List RRecord) :
    routeDomain nm nm lb getList =
      goalChanges nm lb.canonical_hosted_zone_name_id getList "A" (lbDnsName lb) ++
      goalChanges nm lb.canonical_hosted_zone_name_id getList "AAAA" (ipv6DnsName lb) := by
  simp [routeDomain]

theorem routeDomain_nonapex_some {topname nm : String} {lb : LB}
    {getList : String → List RRecord} {r : RRecord} (hne : topname ≠ nm)
    (hfind : findRecord (getList "CNAME") "CNAME" nm = some r) :
    routeDomain topname nm lb getList =
      if r.resource_records == [dualstackDnsName lb] then []
      else [cnameDelete r, cnameCreate nm (dualstackDnsName lb)] := by
  simp [routeDomain, hne, hfind]

theorem routeDomain_nonapex_none {topname nm : String} {lb : LB}
    {getList : String → List RRecord} (hne : topname ≠ nm)
    (hfind : findRecord (getList "CNAME") "CNAME" nm = none) :
    routeDomain topname nm lb getList = [cnameCreate nm (dualstackDnsName lb)] := by
  simp [routeDomain, hne, hfind]

/-- A second apex call after committing the first call's changes
stages nothing. -/
theorem routeDomain_second_apex (nm : String) (lb : LB)
    (getList : String → List RRecord)
    (hUA : atMostOne getList "A" nm) (hUQ : atMostOne getList "AAAA" nm) :
    routeDomain nm nm lb
      (applyChangeset getList (routeDomain nm nm lb getList)) = [] := by
  have hcs := routeDomain_apex nm lb getList
  set hzid := lb.canonical_hosted_zone_name_id with hhz
  set dnsA := lbDnsName lb with hdA
  set dnsQ := ipv6DnsName lb with hdQ
  set cs := routeDomain nm nm lb getList with hcsdef
  have hmemcs : ∀ c ∈ cs, c ∈ goalChanges nm hzid getList "A" dnsA ∨
      c ∈ goalChanges nm hzid getList "AAAA" dnsQ := by
    intro c hc
    rw [hcs] at hc
    exact List.mem_append.mp hc
  have hA : goalChanges nm hzid (applyChangeset getList cs) "A" dnsA = [] := by
    apply goalChanges_second nm hzid getList cs "A" dnsA hUA
    · intro c hc
      rw [hcs]
      exact List.mem_append_left _ hc
    · intro c hc hact hct
      rcases hmemcs c hc with h | h
      · exact (goalChanges_cases nm hzid getList "A" dnsA h).2.2.1 hact
      · have hty := (goalChanges_cases nm hzid getList "AAAA" dnsQ h).1
        rw [hct] at hty
        exact absurd hty (by decide)
    · intro c hc hact hct
      rcases hmemcs c hc with h | h
      · exact (goalChanges_cases nm hzid getList "A" dnsA h).2.2.2 hact
      · have hty := (goalChanges_cases nm hzid getList "AAAA" dnsQ h).1
        rw [hct] at hty
        exact absurd hty (by decide)
  have hQ : goalChanges nm hzid (applyChangeset getList cs) "AAAA" dnsQ = [] := by
    apply goalChanges_second nm hzid getList cs "AAAA" dnsQ hUQ
    · intro c hc
      rw [hcs]
      exact List.mem_append_right _ hc
    · intro c hc hact hct
      rcases hmemcs c hc with h | h
      · have hty := (goalChanges_cases nm hzid getList "A" dnsA h).1
        rw [hct] at hty
        exact absurd hty (by decide)
      · exact (goalChanges_cases nm hzid getList "AAAA" dnsQ h).2.2.1 hact
    · intro c hc hact hct
      rcases hmemcs c hc with h | h
      · have hty := (goalChanges_cases nm hzid getList "A" dnsA h).1
        rw [hct] at hty
        exact absurd hty (by decide)
      · exact (goalChanges_cases nm hzid getList "AAAA" dnsQ h).2.2.2 hact
  rw [routeDomain_apex nm lb (applyChangeset getList cs), hA, hQ]
  rfl

/-- A second non-apex call after committing the first call's changes
stages nothing. -/
theorem routeDomain_second_cname (topname nm : String) (lb : LB)
    (getList : String → List RRecord) (hne : topname ≠ nm)
    (hU : atMostOne getList "CNAME" nm) :
    routeDomain topname nm lb
      (applyChangeset getList (routeDomain topname nm lb getList)) = [] := by
  cases hfind : findRecord (getList "CNAME") "CNAME" nm with
  | some r =>
    obtain ⟨hmem, hrt, hrn⟩ := findRecord_spec hfind
    by_cases hok : (r.resource_records == [dualstackDnsName lb]) = true
    · -- already routed: the first call staged nothing
      have hcs0 : routeDomain topname nm lb getList = [] := by
        rw [routeDomain_nonapex_some hne hfind, if_pos hok]
      rw [hcs0]
      have happ : applyChangeset getList [] "CNAME" = getList "CNAME" := by
        simp [applyChangeset]
      have hfind2 : findRecord (applyChangeset getList [] "CNAME") "CNAME" nm
          = some r := by
        rw [happ]
        exact hfind
      rw [routeDomain_nonapex_some hne hfind2, if_pos hok]
    · -- stale CNAME: deleted and recreated with the dualstack value
      have hcs1 : routeDomain topname nm lb getList
          = [cnameDelete r, cnameCreate nm (dualstackDnsName lb)] := by
        rw [routeDomain_nonapex_some hne hfind, if_neg hok]
      rw [hcs1]
      have happly : applyChangeset getList
          [cnameDelete r, cnameCreate nm (dualstackDnsName lb)] "CNAME" =
          ((getList "CNAME").filter fun x =>
            !([cnameDelete r, cnameCreate nm (dualstackDnsName lb)].any fun c =>
              c.action == "DELETE" && c.rtype == x.rtype &&
              c.rname == x.rname && c.identifier == x.identifier))
          ++ ([cnameDelete r, cnameCreate nm (dualstackDnsName lb)].filter fun c =>
              c.action == "CREATE" && c.rtype == "CNAME").map recordOfChange := rfl
      have hleft : (((getList "CNAME").filter fun x =>
          !([cnameDelete r, cnameCreate nm (dualstackDnsName lb)].any fun c =>
            c.action == "DELETE" && c.rtype == x.rtype &&
            c.rname == x.rname && c.identifier == x.identifier)).find?
          fun x => x.rtype == "CNAME" && x.rname == nm) = none := by
        apply find?_filter_none
        intro x hx hpx
        rw [Bool.and_eq_true, beq_iff_eq, beq_iff_eq] at hpx
        have hxr : x = r := hU x hx r hmem hpx.1 hpx.2 hrt hrn
        subst hxr
        have hany : ([cnameDelete x, cnameCreate nm (dualstackDnsName lb)].any fun c =>
            c.action == "DELETE" && c.rtype == x.rtype &&
            c.rname == x.rname && c.identifier == x.identifier) = true := by
          rw [List.any_eq_true]
          refine ⟨cnameDelete x, List.mem_cons_self _ _, ?_⟩
          simp [cnameDelete]
        rw [hany]
        rfl
      have hright : (([cnameDelete r, cnameCreate nm (dualstackDnsName lb)].filter
          fun c => c.action == "CREATE" && c.rtype == "CNAME").map
            recordOfChange).find? (fun x => x.rtype == "CNAME" && x.rname == nm)
          = some (recordOfChange (cnameCreate nm (dualstackDnsName lb))) := by
        have hfilter : ([cnameDelete r, cnameCreate nm (dualstackDnsName lb)].filter
            fun c => c.action == "CREATE" && c.rtype == "CNAME")
            = [cnameCreate nm (dualstackDnsName lb)] := by
          simp [List.filter, cnameDelete, cnameCreate]
        rw [hfilter]
        simp [List.find?, recordOfChange, cnameCreate]
      have hfind2 : findRecord (applyChangeset getList
          [cnameDelete r, cnameCreate nm (dualstackDnsName lb)] "CNAME") "CNAME" nm
          = some (recordOfChange (cnameCreate nm (dualstackDnsName lb))) := by
        rw [happly, findRecord_append]
        unfold findRecord
        rw [hleft, hright]
        rfl
      rw [routeDomain_nonapex_some hne hfind2,
        if_pos (by simp [recordOfChange, cnameCreate])]
  | none =>
    have hcs1 : routeDomain topname nm lb getList
        = [cnameCreate nm (dualstackDnsName lb)] :=
      routeDomain_nonapex_none hne hfind
    rw [hcs1]
    have happly : applyChangeset getList
        [cnameCreate nm (dualstackDnsName lb)] "CNAME" =
        ((getList "CNAME").filter fun x =>
          !([cnameCreate nm (dualstackDnsName lb)].any fun c =>
            c.action == "DELETE" && c.rtype == x.rtype &&
            c.rname == x.rname && c.identifier == x.identifier))
        ++ ([cnameCreate nm (dualstackDnsName lb)].filter fun c =>
            c.action == "CREATE" && c.rtype == "CNAME").map recordOfChange := rfl
    have hleft : (((getList "CNAME").filter fun x =>
        !([cnameCreate nm (dualstackDnsName lb)].any fun c =>
          c.action == "DELETE" && c.rtype == x.rtype &&
          c.rname == x.rname && c.identifier == x.identifier)).find?
        fun x => x.rtype == "CNAME" && x.rname == nm) = none := by
      rw [List.find?_eq_none]
      intro x hx
      exact List.find?_eq_none.mp hfind x (List.mem_of_mem_filter hx)
    have hright : (([cnameCreate nm (dualstackDnsName lb)].filter
        fun c => c.action == "CREATE" && c.rtype == "CNAME").map
          recordOfChange).find? (fun x => x.rtype == "CNAME" && x.rname == nm)
        = some (recordOfChange (cnameCreate nm (dualstackDnsName lb))) := by
      have hfilter : ([cnameCreate nm (dualstackDnsName lb)].filter
          fun c => c.action == "CREATE" && c.rtype == "CNAME")
          = [cnameCreate nm (dualstackDnsName lb)] := by
        simp [List.filter, cnameCreate]
      rw [hfilter]
      simp [List.find?, recordOfChange, cnameCreate]
    have hfind2 : findRecord (applyChangeset getList
        [cnameCreate nm (dualstackDnsName lb)] "CNAME") "CNAME" nm
        = some (recordOfChange (cnameCreate nm (dualstackDnsName lb))) := by
      rw [happly, findRecord_append]
      unfold findRecord
      rw [hleft, hright]
      rfl
    rw [routeDomain_nonapex_some hne hfind2,
      if_pos (by simp [recordOfChange, cnameCreate])]

/-- C4: `route_domain` is idempotent.  (1) For the zone apex, when for
each goal (A and AAAA) the existing record already carries the load
balancer's alias identity (hosted zone id + dns name), the call stages
nothing.  (2) For a non-apex name, when the existing CNAME's value is
exactly the dualstack endpoint, the call stages nothing.  (3) A second
call with the same target after a committed first call stages nothing
(for listings holding at most one record per type at the name, the
situation a committed changeset maintains). -/
theorem route_domain_idempotent :
    (∀ (nm : String) (lb : LB) (getList : String → List RRecord),
      (∀ g ∈ [("A", lbDnsName lb), ("AAAA", ipv6DnsName lb)],
        ∃ r, findRecord (getList g.1) g.1 nm = some r ∧
          r.alias_hosted_zone_id = some lb.canonical_hosted_zone_name_id ∧
          r.alias_dns_name = some g.2) →
      routeDomain nm nm lb getList = []) ∧
    (∀ (topname nm : String) (lb : LB) (getList : String → List RRecord),
      topname ≠ nm →
      (∃ r, findRecord (getList "CNAME") "CNAME" nm = some r ∧
        r.resource_records = [dualstackDnsName lb]) →
      routeDomain topname nm lb getList = []) ∧
    (∀ (topname nm : String) (lb : LB) (getList : String → List RRecord),
      (∀ t, atMostOne getList t nm) →
      routeDomain topname nm lb
        (applyChangeset getList (routeDomain topname nm lb getList)) = []) := by
  refine ⟨?_, ?_, ?_⟩
  · intro nm lb getList hmet
    rw [routeDomain_apex]
    obtain ⟨rA, hfA, hzA, hdA⟩ := hmet ("A", lbDnsName lb) (by simp)
    obtain ⟨rQ, hfQ, hzQ, hdQ⟩ := hmet ("AAAA", ipv6DnsName lb) (by simp)
    rw [goalChanges_eq_some hfA,
      if_pos (by rw [Bool.and_eq_true, beq_iff_eq, beq_iff_eq]; exact ⟨hzA, hdA⟩),
      goalChanges_eq_some hfQ,
      if_pos (by rw [Bool.and_eq_true, beq_iff_eq, beq_iff_eq]; exact ⟨hzQ, hdQ⟩)]
    rfl
  · rintro topname nm lb getList hne ⟨r, hf, hres⟩
    rw [routeDomain_nonapex_some hne hf, if_pos (by rw [beq_iff_eq]; exact hres)]
  · intro topname nm lb getList hU
    by_cases h : topname = nm
    · subst h
      exact routeDomain_second_apex topname lb getList (hU "A") (hU "AAAA")
    · exact routeDomain_second_cname topname nm lb getList h (hU "CNAME")

/-- Witness for C4: the three parts at concrete states — an apex with
both alias records already correct, a non-apex name with the correct
CNAME, and a call-commit-call round trip from an empty zone. -/
theorem route_domain_idempotent_witness :
    routeDomain "ex." "ex." ⟨"lb.aws", "Z1"⟩
      (fun t => if t = "A" then
          [⟨"A", "ex.", none, some "Z1", some "lb.aws.", none, none, none, []⟩]
        else if t = "AAAA" then
          [⟨"AAAA", "ex.", none, some "Z1", some "ipv6.lb.aws.", none, none, none, []⟩]
        else []) = [] ∧
    routeDomain "top." "ex." ⟨"lb.aws", "Z1"⟩
      (fun _ => [⟨"CNAME", "ex.", none, none, none, none, none, none,
        ["dualstack.lb.aws."]⟩]) = [] ∧
    routeDomain "ex." "ex." ⟨"lb.aws", "Z1"⟩
      (applyChangeset (fun _ => [])
        (routeDomain "ex." "ex." ⟨"lb.aws", "Z1"⟩ (fun _ => []))) = [] := by
  refine ⟨?_, ?_, ?_⟩
  · apply route_domain_idempotent.1
    intro g hg
    have h2 : g = ("A", "lb.aws.") ∨ g = ("AAAA", "ipv6.lb.aws.") := by
      simpa using hg
    rcases h2 with rfl | rfl
    · exact ⟨⟨"A", "ex.", none, some "Z1", some "lb.aws.", none, none, none, []⟩,
        rfl, rfl, rfl⟩
    · exact ⟨⟨"AAAA", "ex.", none, some "Z1", some "ipv6.lb.aws.", none, none,
        none, []⟩, rfl, rfl, rfl⟩
  · apply route_domain_idempotent.2.1
    · decide
    · exact ⟨⟨"CNAME", "ex.", none, none, none, none, none, none,
        ["dualstack.lb.aws."]⟩, rfl, rfl⟩
  · apply route_domain_idempotent.2.2
    intro t r1 h1
    exact absurd h1 (List.not_mem_nil r1)

/-- C5 counterexample: an apex name whose only existing record is a
stale A alias.  `route_domain` stages a DELETE and a CREATE for the A
goal and then an additional CREATE for the missing AAAA goal — three
changes, not "exactly one DELETE followed by one CREATE". -/
theorem route_domain_stale_apex_counterexample :
    (routeDomain "ex." "ex." ⟨"lb.aws", "Z1"⟩
      (fun t => if t = "A" then
          [⟨"A", "ex.", some 300, some "ZOLD", some "old.aws.", some "id1",
            some 7, some "us-east-1", []⟩]
        else [])).map RChange.action = ["DELETE", "CREATE", "CREATE"] ∧
    (["DELETE", "CREATE", "CREATE"] : List String) ≠ ["DELETE", "CREATE"] := by
  exact ⟨rfl, by decide⟩

/-- C5 (amended): for an apex name whose first listed A record is a
stale alias and whose AAAA record already matches its goal,
`route_domain` stages exactly one DELETE followed by one CREATE, the
DELETE carrying the stale record's ttl, weight, region and identifier
fields; when the AAAA record is absent or stale too, that goal is
reconciled independently with further changes (cf. the
counterexample). -/
theorem route_domain_stale_apex :
    ∀ (nm : String) (lb : LB) (getList : String → List RRecord) (r : RRecord),
      findRecord (getList "A") "A" nm = some r →
      ¬(r.alias_hosted_zone_id = some lb.canonical_hosted_zone_name_id ∧
        r.alias_dns_name = some (lbDnsName lb)) →
      (∃ rq, findRecord (getList "AAAA") "AAAA" nm = some rq ∧
        rq.alias_hosted_zone_id = some lb.canonical_hosted_zone_name_id ∧
        rq.alias_dns_name = some (ipv6DnsName lb)) →
      routeDomain nm nm lb getList =
        [aliasDelete r lb.canonical_hosted_zone_name_id (lbDnsName lb),
         aliasCreate nm "A" lb.canonical_hosted_zone_name_id (lbDnsName lb)] ∧
      (aliasDelete r lb.canonical_hosted_zone_name_id (lbDnsName lb)).action
        = "DELETE" ∧
      (aliasCreate nm "A" lb.canonical_hosted_zone_name_id (lbDnsName lb)).action
        = "CREATE" ∧
      (aliasDelete r lb.canonical_hosted_zone_name_id (lbDnsName lb)).weight
        = r.weight ∧
      (aliasDelete r lb.canonical_hosted_zone_name_id (lbDnsName lb)).region
        = r.region ∧
      (aliasDelete r lb.canonical_hosted_zone_name_id (lbDnsName lb)).identifier
        = r.identifier ∧
      (aliasDelete r lb.canonical_hosted_zone_name_id (lbDnsName lb)).ttl
        = r.ttl := by
  rintro nm lb getList r hfA hstale ⟨rq, hfQ, hzQ, hdQ⟩
  refine ⟨?_, rfl, rfl, rfl, rfl, rfl, rfl⟩
  rw [routeDomain_apex, goalChanges_eq_some hfA,
    if_neg (by rw [Bool.and_eq_true, beq_iff_eq, beq_iff_eq]; exact hstale),
    goalChanges_eq_some hfQ,
    if_pos (by rw [Bool.and_eq_true, beq_iff_eq, beq_iff_eq]; exact ⟨hzQ, hdQ⟩)]
  rfl

/-- Witness for C5 (amended): concrete apex state with a stale A alias
(carrying weighted-record fields) and a correct AAAA alias. -/
theorem route_domain_stale_apex_witness :
    routeDomain "ex." "ex." ⟨"lb.aws", "Z1"⟩
      (fun t => if t = "A" then
          [⟨"A", "ex.", some 300, some "ZOLD", some "old.aws.", some "id1",
            some 7, some "us-east-1", []⟩]
        else if t = "AAAA" then
          [⟨"AAAA", "ex.", none, some "Z1", some "ipv6.lb.aws.", none, none,
            none, []⟩]
        else []) =
      [aliasDelete ⟨"A", "ex.", some 300, some "ZOLD", some "old.aws.",
          some "id1", some 7, some "us-east-1", []⟩ "Z1" "lb.aws.",
       aliasCreate "ex." "A" "Z1" "lb.aws."] ∧
    (aliasDelete ⟨"A", "ex.", some 300, some "ZOLD", some "old.aws.",
        some "id1", some 7, some "us-east-1", []⟩ "Z1" "lb.aws.").action
      = "DELETE" ∧
    (aliasCreate "ex." "A" "Z1" "lb.aws.").action = "CREATE" ∧
    (aliasDelete ⟨"A", "ex.", some 300, some "ZOLD", some "old.aws.",
        some "id1", some 7, some "us-east-1", []⟩ "Z1" "lb.aws.").weight
      = some 7 ∧
    (aliasDelete ⟨"A", "ex.", some 300, some "ZOLD", some "old.aws.",
        some "id1", some 7, some "us-east-1", []⟩ "Z1" "lb.aws.").region
      = some "us-east-1" ∧
    (aliasDelete ⟨"A", "ex.", some 300, some "ZOLD", some "old.aws.",
        some "id1", some 7, some "us-east-1", []⟩ "Z1" "lb.aws.").identifier
      = some "id1" ∧
    (aliasDelete ⟨"A", "ex.", some 300, some "ZOLD", some "old.aws.",
        some "id1", some 7, some "us-east-1", []⟩ "Z1" "lb.aws.").ttl
      = some 300 :=
  route_domain_stale_apex "ex." ⟨"lb.aws", "Z1"⟩
    (fun t => if t = "A" then
        [⟨"A", "ex.", some 300, some "ZOLD", some "old.aws.", some "id1",
          some 7, some "us-east-1", []⟩]
      else if t = "AAAA" then
        [⟨"AAAA", "ex.", none, some "Z1", some "ipv6.lb.aws.", none, none,
          none, []⟩]
      else [])
    ⟨"A", "ex.", some 300, some "ZOLD", some "old.aws.", some "id1",
      some 7, some "us-east-1", []⟩
    rfl (by intro h; simp at h)
    ⟨⟨"AAAA", "ex.", none, some "Z1", some "ipv6.lb.aws.", none, none,
      none, []⟩, rfl, rfl, rfl⟩

/-! ## SSH connect retry and `wait_state` (instance.py)

`Instance.__enter__` (instance.py lines 128-156) loops:

```
trial = 1
while 1:
    try:
        self.local.client.connect(...)
    except socket.error as e:
        if 60 <= e.errno <= 61 and trial <= 20:
            time.sleep(3)
            trial += 1
            continue
        logger.exception(e)
        raise
    else:
        break
```

The environment is embedded as `out trial`: the outcome of the
`trial`-th `connect` call (success, or a socket error with an errno).
The unbounded `while` is embedded with a fuel parameter; `enterConnect`
passes 21, which covers the longest possible run (trial 1 through 21;
a retry requires `trial <= 20`, shown by `connectLoop_fuel_irrelevant`).

`Instance.wait_state` (instance.py lines 165-189):

```
start = time.time()
trial = 1
while self.instance.state != state and time.time() - start < timeout:
    ...
    self.instance.update()
    time.sleep(tick)
    trial += 1
if self.instance.state != state:
    raise WaitTimeoutError(number=trial, seconds=time.time() - start)
```

`stateAt k` is the state read at the k-th loop-condition check and
`clockAt k` the elapsed seconds read there; the final re-read of
`instance.state` after the loop sees the same value as the last
condition check.  The `seconds` field of the error is not modelled
(no claim concerns it). -/

/-- Outcome of one `connect()` call. -/
inductive ConnectOutcome
  | success
  | sockError (errno : Int)
  deriving Repr, DecidableEq

/-- What a run of the `__enter__` connect loop did: how many
`connect()` calls it made, which sleeps it performed, and whether it
ended connected (`true`) or re-raised the socket error (`false`). -/
structure ConnectResult where
  attempts : Nat
  sleeps : List Nat
  connected : Bool
  deriving Repr, DecidableEq

/-- The `while 1` connect loop of `Instance.__enter__` (instance.py
lines 134-155), fuel-indexed. -/
def connectLoop (out : Nat → ConnectOutcome) : Nat → Nat → ConnectResult
  | 0, _ => ⟨0, [], false⟩
  | fuel + 1, trial =>
    match out trial with
    | ConnectOutcome.success => ⟨1, [], true⟩
    | ConnectOutcome.sockError e =>
      if 60 ≤ e ∧ e ≤ 61 ∧ trial ≤ 20 then
        let r := connectLoop out fuel (trial + 1)
        ⟨r.attempts + 1, 3 :: r.sleeps, r.connected⟩
      else ⟨1, [], false⟩

/-- `Instance.__enter__`'s connect loop from its entry point
(`trial = 1`). -/
def enterConnect (out : Nat → ConnectOutcome) : ConnectResult :=
  connectLoop out 21 1

/-- The fuel 21 of `enterConnect` is not a modelling artifact: any
fuel covering the remaining trials up to 21 yields the same run. -/
theorem connectLoop_fuel_irrelevant (out : Nat → ConnectOutcome) :
    ∀ (fuel fuel' trial : Nat), trial ≤ 21 →
      22 ≤ trial + fuel → 22 ≤ trial + fuel' →
      connectLoop out fuel trial = connectLoop out fuel' trial := by
  intro fuel
  induction fuel with
  | zero => intro fuel' trial h1 h2 _; omega
  | succ fuel IH =>
    intro fuel' trial h1 h2 h3
    cases fuel' with
    | zero => omega
    | succ fuel' =>
      show connectLoop out (fuel + 1) trial = connectLoop out (fuel' + 1) trial
      rcases hout : out trial with _ | e
      · simp only [connectLoop, hout]
      · simp only [connectLoop, hout]
        by_cases hc : 60 ≤ e ∧ e ≤ 61 ∧ trial ≤ 20
        · rw [if_pos hc, if_pos hc, IH fuel' (trial + 1) (by omega) (by omega)
            (by omega)]
        · rw [if_neg hc, if_neg hc]

/-- Result of `Instance.wait_state`: normal return or a
`WaitTimeoutError`, together with the number of polling iterations
(loop bodies) actually performed. -/
inductive WaitResult
  | ok (iterations : Nat)
  | timeoutErr (number iterations : Nat)
  deriving Repr, DecidableEq

/-- The polling loop of `Instance.wait_state` (instance.py lines
177-189), fuel-indexed; `k` counts performed iterations (0 at entry)
and `trial` is the source's counter (1 at entry). -/
def waitState (stateAt : Nat → String) (clockAt : Nat → Nat)
    (goal : String) (timeout : Nat) : Nat → Nat → Nat → WaitResult
  | 0, k, _ => WaitResult.ok k
  | fuel + 1, k, trial =>
    if stateAt k ≠ goal ∧ clockAt k < timeout then
      waitState stateAt clockAt goal timeout fuel (k + 1) (trial + 1)
    else if stateAt k ≠ goal then WaitResult.timeoutErr trial k
    else WaitResult.ok k

/-- `Instance.wait_state` from its entry point (no iterations yet,
`trial = 1`). -/
def waitStateRun (stateAt : Nat → String) (clockAt : Nat → Nat)
    (goal : String) (timeout fuel : Nat) : WaitResult :=
  waitState stateAt clockAt goal timeout fuel 0 1

theorem waitState_number (stateAt : Nat → String) (clockAt : Nat → Nat)
    (goal : String) (timeout : Nat) :
    ∀ (fuel k trial n i : Nat),
      waitState stateAt clockAt goal timeout fuel k trial
        = WaitResult.timeoutErr n i →
      k ≤ i ∧ n = i - k + trial := by
  intro fuel
  induction fuel with
  | zero =>
    intro k trial n i h
    simp [waitState] at h
  | succ fuel IH =>
    intro k trial n i h
    rw [waitState] at h
    by_cases hc : stateAt k ≠ goal ∧ clockAt k < timeout
    · rw [if_pos hc] at h
      obtain ⟨h1, h2⟩ := IH (k + 1) (trial + 1) n i h
      exact ⟨by omega, by omega⟩
    · rw [if_neg hc] at h
      by_cases hs : stateAt k ≠ goal
      · rw [if_pos hs] at h
        cases h
        exact ⟨Nat.le_refl k, by omega⟩
      · rw [if_neg hs] at h
        cases h

/-- C7 counterexample: (1) with every attempt failing with errno 60,
the connect loop performs 21 attempts, above the claimed ceiling of
20 (`trial <= 20` guards the *retry*, so the raising attempt is the
21st); (2) a `wait_state` run whose clock passes the timeout after one
polling iteration raises `WaitTimeoutError` with `number = 2`, one
more than the 1 iteration performed. -/
theorem connect_retry_counterexample :
    (enterConnect (fun _ => ConnectOutcome.sockError 60)).attempts = 21 ∧
    ¬((enterConnect (fun _ => ConnectOutcome.sockError 60)).attempts ≤ 20) ∧
    waitStateRun (fun _ => "pending") (fun k => 5 * k) "running" 3 10
      = WaitResult.timeoutErr 2 1 ∧
    (2 : Nat) ≠ 1 := by
  refine ⟨by decide, by decide, by decide, by decide⟩

/-- C7 (amended): the connect loop retries only on errno 60-61 — any
other socket error is re-raised at once — stops immediately on
success, sleeps a fixed 3 seconds before every retry, and performs at
most 21 connection attempts (the `trial <= 20` guard bounds the
retries, not the attempts); and when `wait_state` times out, the
raised error reports an attempt count equal to the number of polling
iterations actually performed PLUS ONE (the counter starts at 1 and
is incremented after each iteration). -/
theorem connect_retry_and_wait_state :
    (∀ (out : Nat → ConnectOutcome) (fuel trial : Nat) (e : Int),
      out trial = ConnectOutcome.sockError e → ¬(60 ≤ e ∧ e ≤ 61) →
      connectLoop out (fuel + 1) trial = ⟨1, [], false⟩) ∧
    (∀ (out : Nat → ConnectOutcome) (fuel trial : Nat),
      out trial = ConnectOutcome.success →
      connectLoop out (fuel + 1) trial = ⟨1, [], true⟩) ∧
    (∀ (out : Nat → ConnectOutcome) (fuel trial : Nat),
      (connectLoop out fuel trial).attempts ≤ fuel) ∧
    (∀ (out : Nat → ConnectOutcome) (fuel trial : Nat),
      ∀ s ∈ (connectLoop out fuel trial).sleeps, s = 3) ∧
    (∀ (stateAt : Nat → String) (clockAt : Nat → Nat) (goal : String)
      (timeout fuel n i : Nat),
      waitStateRun stateAt clockAt goal timeout fuel
        = WaitResult.timeoutErr n i →
      n = i + 1) := by
  refine ⟨?_, ?_, ?_, ?_, ?_⟩
  · intro out fuel trial e he hrange
    have hc : ¬(60 ≤ e ∧ e ≤ 61 ∧ trial ≤ 20) := by tauto
    simp only [connectLoop, he]
    rw [if_neg hc]
  · intro out fuel trial he
    simp only [connectLoop, he]
  · intro out fuel
    induction fuel with
    | zero => intro trial; exact Nat.le_refl 0
    | succ fuel IH =>
      intro trial
      rcases hout : out trial with _ | e
      · simp only [connectLoop, hout]
        exact Nat.le_add_left 1 fuel
      · simp only [connectLoop, hout]
        by_cases hc : 60 ≤ e ∧ e ≤ 61 ∧ trial ≤ 20
        · rw [if_pos hc]
          show (connectLoop out fuel (trial + 1)).attempts + 1 ≤ fuel + 1
          have := IH (trial + 1)
          omega
        · rw [if_neg hc]
          exact Nat.le_add_left 1 fuel
  · intro out fuel
    induction fuel with
    | zero => intro trial s hs; simp [connectLoop] at hs
    | succ fuel IH =>
      intro trial s hs
      rcases hout : out trial with _ | e
      · simp only [connectLoop, hout] at hs
        simp at hs
      · simp only [connectLoop, hout] at hs
        by_cases hc : 60 ≤ e ∧ e ≤ 61 ∧ trial ≤ 20
        · rw [if_pos hc] at hs
          replace hs : s ∈ 3 :: (connectLoop out fuel (trial + 1)).sleeps := hs
          rcases List.mem_cons.mp hs with rfl | hs'
          · rfl
          · exact IH (trial + 1) s hs'
        · rw [if_neg hc] at hs
          simp at hs
  · intro stateAt clockAt goal timeout fuel n i h
    obtain ⟨h1, h2⟩ := waitState_number stateAt clockAt goal timeout fuel 0 1 n i h
    omega

/-- Witness for C7 (amended): each part at a concrete input. -/
theorem connect_retry_and_wait_state_witness :
    connectLoop (fun _ => ConnectOutcome.sockError 13) 5 1 = ⟨1, [], false⟩ ∧
    connectLoop (fun _ => ConnectOutcome.success) 5 1 = ⟨1, [], true⟩ ∧
    (connectLoop (fun _ => ConnectOutcome.sockError 60) 21 1).attempts ≤ 21 ∧
    (∀ s ∈ (connectLoop (fun _ => ConnectOutcome.sockError 60) 21 1).sleeps,
      s = 3) ∧
    (2 : Nat) = 1 + 1 :=
  ⟨connect_retry_and_wait_state.1 (fun _ => ConnectOutcome.sockError 13) 4 1 13
    rfl (by decide),
   connect_retry_and_wait_state.2.1 (fun _ => ConnectOutcome.success) 4 1 rfl,
   connect_retry_and_wait_state.2.2.1 (fun _ => ConnectOutcome.sockError 60) 21 1,
   connect_retry_and_wait_state.2.2.2.1 (fun _ => ConnectOutcome.sockError 60) 21 1,
   connect_retry_and_wait_state.2.2.2.2 (fun _ => "pending") (fun k => 5 * k)
     "running" 3 10 2 1 (by decide)⟩

/-! ## Branch label, equality and hashing (branch.py)

```
@property
def label(self):
    name = self.name
    ...
    return 'branch-{0}'.format(name.replace('_', '-'))

def __eq__(self, operand):
    if isinstance(operand, type(self)):
        return self.label == operand.label
    return False

def __hash__(self):
    return hash(self.name)
```

Two plain branches of the same application are compared; Python's
opaque string hash is an abstract parameter `h`. -/

/-- A plain `Branch` as `label`/`__eq__`/`__hash__` see it (the
application is fixed and the name already byte-encoded). -/
structure PyBranch where
  name : String
  deriving Repr, DecidableEq

/-- Python's `name.replace('_', '-')`: every underscore becomes a
hyphen. -/
def replaceUnderscores (s : String) : String :=
  ⟨s.data.map fun c => if c = '_' then '-' else c⟩

/-- `Branch.label` (branch.py lines 65-75). -/
def branchLabel (b : PyBranch) : String :=
  "branch-" ++ replaceUnderscores b.name

/-- `Branch.__eq__` (branch.py lines 149-152) for two plain branches. -/
def branchEq (a b : PyBranch) : Bool :=
  branchLabel a == branchLabel b

/-- `Branch.__hash__` (branch.py lines 157-158): the hash of the raw
`name`, not of the label. -/
def branchHash (h : String → Int) (b : PyBranch) : Int :=
  h b.name

/-- C8: branch equality is indeed defined by label, and the branches
named foo_bar and foo-bar share the label branch-foo-bar and compare
equal — but `__hash__` hashes the raw `name`, so for any string hash
separating the two names (as CPython's does) the two equal branches
hash differently, violating the claimed (and Python-required)
equal-implies-equal-hash contract. -/
theorem branch_eq_by_label_hash_by_name :
    (∀ a b : PyBranch, branchEq a b = true ↔ branchLabel a = branchLabel b) ∧
    branchEq ⟨"foo_bar"⟩ ⟨"foo-bar"⟩ = true ∧
    branchLabel ⟨"foo_bar"⟩ = "branch-foo-bar" ∧
    branchLabel ⟨"foo-bar"⟩ = "branch-foo-bar" ∧
    (∀ h : String → Int, h "foo_bar" ≠ h "foo-bar" →
      branchHash h ⟨"foo_bar"⟩ ≠ branchHash h ⟨"foo-bar"⟩) := by
  refine ⟨?_, by decide, by decide, by decide, fun h hne => hne⟩
  intro a b
  rw [branchEq, beq_iff_eq]

/-- Witness for C8: a concrete hash separating the two names. -/
theorem branch_eq_by_label_hash_by_name_witness :
    branchHash (fun s => if s = "foo_bar" then 0 else 1) ⟨"foo_bar"⟩ ≠
    branchHash (fun s => if s = "foo_bar" then 0 else 1) ⟨"foo-bar"⟩ :=
  branch_eq_by_label_hash_by_name.2.2.2.2
    (fun s => if s = "foo_bar" then 0 else 1) (by decide)

/-! ## Commit ref validation (commit.py)

```
REF_PATTERN = re.compile(r'^[A-Fa-f0-9]{6,40}$')
...
elif not self.REF_PATTERN.match(ref):
    raise ValueError('{0!r} is not valid ref id'.format(ref))
self.app = app
self.ref = str(ref)
if len(self.ref) < 40:
    self.ref = self.repo_commit.sha
```

Python's `$` matches at the end of the string *or just before a
trailing newline*, so the pattern also accepts 6-40 hex characters
followed by one final newline.  The GitHub lookup
`self.repo_commit.sha` is the abstract `resolve` function. -/

/-- A character of the class `[A-Fa-f0-9]`. -/
def isHexChar (c : Char) : Bool :=
  ('0' ≤ c && c ≤ '9') || ('a' ≤ c && c ≤ 'f') || ('A' ≤ c && c ≤ 'F')

/-- A run matching `[A-Fa-f0-9]{6,40}` covering the whole list. -/
def hexRun (cs : List Char) : Bool :=
  decide (6 ≤ cs.length) && decide (cs.length ≤ 40) && cs.all isHexChar

/-- Truthiness of `REF_PATTERN.match(ref)` under Python semantics:
the hex run covers the string, or everything up to a final newline. -/
def refMatch (s : String) : Bool :=
  hexRun s.data || (s.data.getLast? == some '\n' && hexRun s.data.dropLast)

/-- `Commit.__init__` (commit.py lines 43-55) for a string ref:
`Except.error` is the raised `ValueError`, `Except.ok` the ref
attribute after construction. -/
def commitInit (resolve : String → String) (ref : String) : Except String String :=
  if refMatch ref then
    if ref.length < 40 then Except.ok (resolve ref)
    else Except.ok ref
  else Except.error (ref ++ " is not valid ref id")

/-- C9: `Commit.__init__` raises ValueError exactly when the Python
pattern match fails, and a matching ref shorter than 40 characters is
resolved via lookup; but the pattern — `$` matching before a trailing
newline — also accepts 6-40 hex characters followed by one final
newline, and such a ref of length at least 40 is kept verbatim, so
the stored ref is then not a 40-character hex hash: 40 hex characters
plus a newline are accepted and stored as a 41-character ref. -/
theorem commit_ref_validation :
    (∀ (resolve : String → String) (ref : String),
      (∀ s, (resolve s).length = 40) →
      ((∃ e, commitInit resolve ref = Except.error e) ↔ refMatch ref = false) ∧
      (∀ out, commitInit resolve ref = Except.ok out →
        out.length = 40 ∨
          (out = ref ∧ 40 ≤ ref.length ∧ ref.data.getLast? = some '\n'))) ∧
    (commitInit (fun _ => "aaaaaaaaaaaaaaaaaaaaaaaaaaaaaaaaaaaaaaaa")
        "aaaaaaaaaaaaaaaaaaaaaaaaaaaaaaaaaaaaaaaa\n"
      = Except.ok "aaaaaaaaaaaaaaaaaaaaaaaaaaaaaaaaaaaaaaaa\n" ∧
      "aaaaaaaaaaaaaaaaaaaaaaaaaaaaaaaaaaaaaaaa\n".length = 41 ∧
      ("aaaaaaaaaaaaaaaaaaaaaaaaaaaaaaaaaaaaaaaa\n".data.all isHexChar) = false) := by
  constructor
  · intro resolve ref hres
    constructor
    · constructor
      · rintro ⟨e, he⟩
        by_contra hm
        rw [Bool.not_eq_false] at hm
        rw [commitInit, if_pos hm] at he
        by_cases hl : ref.length < 40
        · rw [if_pos hl] at he
          cases he
        · rw [if_neg hl] at he
          cases he
      · intro hm
        refine ⟨ref ++ " is not valid ref id", ?_⟩
        rw [commitInit, if_neg (by rw [hm]; exact Bool.false_ne_true)]
    · intro out hout
      by_cases hm : refMatch ref = true
      · rw [commitInit, if_pos hm] at hout
        by_cases hl : ref.length < 40
        · rw [if_pos hl] at hout
          injection hout with h
          rw [← h]
          exact Or.inl (hres ref)
        · rw [if_neg hl] at hout
          injection hout with h
          rw [← h]
          have hge : 40 ≤ ref.length := Nat.le_of_not_lt hl
          rw [refMatch, Bool.or_eq_true] at hm
          rcases hm with hfull | hnl
          · left
            rw [hexRun] at hfull
            simp only [Bool.and_eq_true, decide_eq_true_eq] at hfull
            have h40 : ref.data.length ≤ 40 := by tauto
            have hlen : ref.length = ref.data.length := rfl
            omega
          · rw [Bool.and_eq_true, beq_iff_eq] at hnl
            exact Or.inr ⟨rfl, hge, hnl.1⟩
      · rw [commitInit, if_neg hm] at hout
        cases hout
  · exact ⟨rfl, by decide, by decide⟩

/-- Witness for C9: the general part at a concrete resolver and a
short 6-hex ref, hypotheses discharged there. -/
theorem commit_ref_validation_witness :
    ((∃ e, commitInit (fun _ => "aaaaaaaaaaaaaaaaaaaaaaaaaaaaaaaaaaaaaaaa")
        "abc123" = Except.error e) ↔ refMatch "abc123" = false) ∧
    (∀ out, commitInit (fun _ => "aaaaaaaaaaaaaaaaaaaaaaaaaaaaaaaaaaaaaaaa")
        "abc123" = Except.ok out →
      out.length = 40 ∨
        (out = "abc123" ∧ 40 ≤ "abc123".length ∧
          "abc123".data.getLast? = some '\n')) :=
  commit_ref_validation.1 (fun _ => "aaaaaaaaaaaaaaaaaaaaaaaaaaaaaaaaaaaaaaaa")
    "abc123" (fun _ => rfl)

end Asuka
